import Mathlib

/-!
Verification development for the kv_eql library (an "Explicit Query Language"
over an ordered key-value store).  The development shallowly embeds the code of
src/lib.rs (record store, index maintenance, operator execution) together with
the byte-level behaviour of its two external collaborators where that behaviour
matters: the JSON text codec (serde_json compact serialization, modelled by
`encode` and a verified decoder `decode`) and the ordered byte-keyed namespaces
of the storage engine (modelled as association lists of byte strings with
byte-lexicographic range iteration).  The textual front end fragment of
src/parse.rs that parses record extracts is embedded separately at the end.
-/

set_option maxHeartbeats 1000000

/-- Byte strings: Rust `Vec<u8>` / `&[u8]` values, one `Nat` per byte. -/
abbrev Bytes := List Nat

/-- Byte-lexicographic strict order, as used by the storage engine to order
keys inside a namespace and by `Vec<u8>::cmp` in the merge loop. -/
def bytesLt : Bytes → Bytes → Bool
  | [], [] => false
  | [], _ :: _ => true
  | _ :: _, [] => false
  | a :: as, b :: bs => if a < b then true else if a = b then bytesLt as bs else false

/-- Byte-lexicographic non-strict order. -/
def bytesLe (x y : Bytes) : Bool := bytesLt x y || decide (x = y)

/-- `hasPref p k` holds when `p` is a prefix of `k`. -/
def hasPref : Bytes → Bytes → Bool
  | [], _ => true
  | _ :: _, [] => false
  | a :: as, b :: bs => decide (a = b) && hasPref as bs

/-- UTF-8 bytes of a character (standard UTF-8 encoding). -/
def charBytes (c : Char) : Bytes :=
  let n := c.toNat
  if n < 128 then [n]
  else if n < 2048 then [192 + n / 64, 128 + n % 64]
  else if n < 65536 then [224 + n / 4096, 128 + (n / 64) % 64, 128 + n % 64]
  else [240 + n / 262144, 128 + (n / 4096) % 64, 128 + (n / 64) % 64, 128 + n % 64]

/-- The UTF-8 bytes of a string: the byte content of a Rust `String`. -/
def sbytes (s : String) : Bytes := (s.data.map charBytes).flatten

/-- JSON values (`serde_json::Value`).  Numbers are modelled as integers;
strings and object keys carry their UTF-8 byte content.  Objects model
`serde_json`'s `Map<String, Value>` (a `BTreeMap`, hence kept sorted by key by
the operations that build objects). -/
inductive Value where
  | null : Value
  | bool (b : Bool) : Value
  | num (n : Int) : Value
  | str (s : Bytes) : Value
  | arr (vs : List Value) : Value
  | obj (ms : List (Bytes × Value)) : Value


/-- Decimal digit bytes of a natural number, with an explicit fuel argument so
that the recursion is structural (the fuel strictly dominates the number). -/
def natDigitsAux : Nat → Nat → Bytes
  | 0, _ => []
  | fuel + 1, n => if n < 10 then [48 + n] else natDigitsAux fuel (n / 10) ++ [48 + n % 10]

/-- Decimal digit bytes of a natural number (the bytes `itoa`/`Display` emit). -/
def natDigits (n : Nat) : Bytes := natDigitsAux (n + 1) n

/-- Lower-case hex digit byte for a value below 16. -/
def hexDigit (n : Nat) : Nat := if n < 10 then 48 + n else 87 + n

/-- How serde_json escapes one byte of a string: quote and backslash get a
backslash escape, the named control characters get their short escapes, other
control bytes get a `\u00XX` escape, and all remaining bytes are copied. -/
def escapeByte (b : Nat) : Bytes :=
  if b = 34 then [92, 34]
  else if b = 92 then [92, 92]
  else if b = 8 then [92, 98]
  else if b = 9 then [92, 116]
  else if b = 10 then [92, 110]
  else if b = 12 then [92, 102]
  else if b = 13 then [92, 114]
  else if b < 32 then [92, 117, 48, 48, hexDigit (b / 16), hexDigit (b % 16)]
  else [b]

/-- Bytes of a JSON string literal: quote, escaped content, quote. -/
def encodeStrB (s : Bytes) : Bytes := 34 :: (s.map escapeByte).flatten ++ [34]

mutual

/-- Compact JSON text serialization (`serde_json::to_vec`): the canonical byte
encoding the record store uses for keys, values and index components. -/
def encode : Value → Bytes
  | .null => [110, 117, 108, 108]
  | .bool true => [116, 114, 117, 101]
  | .bool false => [102, 97, 108, 115, 101]
  | .num n => if n < 0 then 45 :: natDigits (-n).toNat else natDigits n.toNat
  | .str s => encodeStrB s
  | .arr vs => 91 :: encodeItems vs ++ [93]
  | .obj ms => 123 :: encodeFields ms ++ [125]

/-- Comma-separated serialization of array elements. -/
def encodeItems : List Value → Bytes
  | [] => []
  | [v] => encode v
  | v :: w :: rest => encode v ++ 44 :: encodeItems (w :: rest)

/-- Comma-separated serialization of object fields (`"key":value`). -/
def encodeFields : List (Bytes × Value) → Bytes
  | [] => []
  | [kv] => encodeStrB kv.1 ++ 58 :: encode kv.2
  | kv :: lw :: rest => encodeStrB kv.1 ++ 58 :: encode kv.2 ++ 44 :: encodeFields (lw :: rest)

end

mutual

/-- Fuel sufficient for the decoder to parse the encoding of a value. -/
def fuelNeed : Value → Nat
  | .arr vs => fuelNeedL vs + 1
  | .obj ms => fuelNeedM ms + 1
  | _ => 1

/-- Fuel sufficient for the decoder's array-item loop. -/
def fuelNeedL : List Value → Nat
  | [] => 1
  | v :: rest => max (fuelNeed v) (fuelNeedL rest) + 1

/-- Fuel sufficient for the decoder's object-field loop. -/
def fuelNeedM : List (Bytes × Value) → Nat
  | [] => 1
  | kv :: rest => max (fuelNeed kv.2) (fuelNeedM rest) + 1

end

/-- Numeric value of a hex digit byte, if it is one. -/
def hexVal (c : Nat) : Option Nat :=
  if 48 ≤ c ∧ c ≤ 57 then some (c - 48)
  else if 97 ≤ c ∧ c ≤ 102 then some (c - 87)
  else if 65 ≤ c ∧ c ≤ 70 then some (c - 55)
  else none

mutual

/-- Body of a JSON string literal: consumes bytes up to the closing quote. -/
def parseStrBody : Bytes → Option (Bytes × Bytes)
  | [] => none
  | b :: rest =>
    if b = 34 then some ([], rest)
    else if b = 92 then parseEsc rest
    else (parseStrBody rest).map fun p => (b :: p.1, p.2)

/-- The escape sequence following a backslash inside a string literal,
undoing the escapes of `escapeByte`; a `\uXXXX` escape is folded back to its
code value (the encoder only emits such escapes for bytes below 0x20). -/
def parseEsc : Bytes → Option (Bytes × Bytes)
  | [] => none
  | e :: rest2 =>
    if e = 34 then (parseStrBody rest2).map fun p => (34 :: p.1, p.2)
    else if e = 92 then (parseStrBody rest2).map fun p => (92 :: p.1, p.2)
    else if e = 98 then (parseStrBody rest2).map fun p => (8 :: p.1, p.2)
    else if e = 116 then (parseStrBody rest2).map fun p => (9 :: p.1, p.2)
    else if e = 110 then (parseStrBody rest2).map fun p => (10 :: p.1, p.2)
    else if e = 102 then (parseStrBody rest2).map fun p => (12 :: p.1, p.2)
    else if e = 114 then (parseStrBody rest2).map fun p => (13 :: p.1, p.2)
    else if e = 117 then
      match rest2 with
      | h1 :: h2 :: h3 :: h4 :: rest3 =>
        (hexVal h1).bind fun x1 =>
          (hexVal h2).bind fun x2 =>
            (hexVal h3).bind fun x3 =>
              (hexVal h4).bind fun x4 =>
                (parseStrBody rest3).map fun p =>
                  ((((x1 * 16 + x2) * 16 + x3) * 16 + x4) :: p.1, p.2)
      | _ => none
    else none

end

/-- Longest digit prefix of a byte string, and the remainder. -/
def spanDigits : Bytes → Bytes × Bytes
  | [] => ([], [])
  | b :: rest =>
    if 48 ≤ b ∧ b ≤ 57 then
      let p := spanDigits rest
      (b :: p.1, p.2)
    else ([], b :: rest)

/-- Numeric value of a string of decimal digit bytes. -/
def digitsToNat (ds : Bytes) : Nat := ds.foldl (fun acc d => acc * 10 + (d - 48)) 0

/-- Array-item loop of the decoder, abstracted over the element decoder `pv`;
the fuel bounds the number of loop iterations. -/
def parseItemsWith (pv : Bytes → Option (Value × Bytes)) : Nat → Bytes → Option (List Value × Bytes)
  | 0, _ => none
  | fuel + 1, bs =>
    (pv bs).bind fun p =>
      match p.2 with
      | 44 :: r2 => (parseItemsWith pv fuel r2).map fun q => (p.1 :: q.1, q.2)
      | 93 :: r2 => some ([p.1], r2)
      | _ => none

/-- Object-field loop of the decoder, abstracted over the value decoder. -/
def parseFieldsWith (pv : Bytes → Option (Value × Bytes)) : Nat → Bytes → Option (List (Bytes × Value) × Bytes)
  | 0, _ => none
  | fuel + 1, bs =>
    match bs with
    | 34 :: bs2 =>
      (parseStrBody bs2).bind fun k =>
        match k.2 with
        | 58 :: r2 =>
          (pv r2).bind fun p =>
            match p.2 with
            | 44 :: r3 => (parseFieldsWith pv fuel r3).map fun q => ((k.1, p.1) :: q.1, q.2)
            | 125 :: r3 => some ([(k.1, p.1)], r3)
            | _ => none
        | _ => none
    | _ => none

/-- Match an expected literal byte tail, returning the remainder. -/
def parseLit : Bytes → Bytes → Option Bytes
  | bs, [] => some bs
  | b :: bs, t :: ts => if b = t then parseLit bs ts else none
  | [], _ :: _ => none

/-- The array following an opening bracket: either an immediate close or the
item loop. -/
def parseArrRest (pv : Bytes → Option (Value × Bytes)) (fuel : Nat) :
    Bytes → Option (Value × Bytes)
  | [] => none
  | r0 :: r' =>
    if r0 = 93 then some (.arr [], r')
    else (parseItemsWith pv fuel (r0 :: r')).map fun p => (.arr p.1, p.2)

/-- The object following an opening brace: either an immediate close or the
field loop. -/
def parseObjRest (pv : Bytes → Option (Value × Bytes)) (fuel : Nat) :
    Bytes → Option (Value × Bytes)
  | [] => none
  | r0 :: r' =>
    if r0 = 125 then some (.obj [], r')
    else (parseFieldsWith pv fuel (r0 :: r')).map fun p => (.obj p.1, p.2)

/-- JSON decoder (`serde_json::from_slice`), with fuel bounding the recursion
depth; returns the parsed value and the unconsumed remainder. -/
def parseValue : Nat → Bytes → Option (Value × Bytes)
  | 0, _ => none
  | fuel + 1, bs =>
    match bs with
    | [] => none
    | b :: rest =>
      if b = 110 then (parseLit rest [117, 108, 108]).map fun r => (.null, r)
      else if b = 116 then (parseLit rest [114, 117, 101]).map fun r => (.bool true, r)
      else if b = 102 then (parseLit rest [97, 108, 115, 101]).map fun r => (.bool false, r)
      else if b = 34 then (parseStrBody rest).map fun p => (.str p.1, p.2)
      else if b = 91 then parseArrRest (parseValue fuel) fuel rest
      else if b = 123 then parseObjRest (parseValue fuel) fuel rest
      else if b = 45 then
        let p := spanDigits rest
        if p.1 = [] then none else some (.num (-(digitsToNat p.1 : Int)), p.2)
      else if 48 ≤ b ∧ b ≤ 57 then
        let p := spanDigits (b :: rest)
        some (.num (digitsToNat p.1 : Int), p.2)
      else none

/-- Decode a complete byte string into a value (`serde_json::from_slice`). -/
def decode (bs : Bytes) : Option Value :=
  (parseValue (bs.length + 1) bs).bind fun p => if p.2 = [] then some p.1 else none

/-- Association-list lookup with byte-string keys (models `HashMap::get`,
`BTreeMap::get` and column-family handle lookup). -/
def alookup {β : Type} : List (Bytes × β) → Bytes → Option β
  | [], _ => none
  | kv :: rest, key => if kv.1 = key then some kv.2 else alookup rest key

/-- Association-list insert-or-replace (models map `insert`). -/
def aset {β : Type} : List (Bytes × β) → Bytes → β → List (Bytes × β)
  | [], k, v => [(k, v)]
  | kv :: rest, k, v => if kv.1 = k then (k, v) :: rest else kv :: aset rest k v

/-- Replace every non-overlapping occurrence of the two-byte pattern
`p1 p2` by the single byte `r`, scanning left to right (models
`str::replace` for the two-character patterns used by JSON pointers). -/
def replace2 (p1 p2 r : Nat) : Bytes → Bytes
  | b1 :: b2 :: rest =>
    if b1 = p1 ∧ b2 = p2 then r :: replace2 p1 p2 r rest
    else b1 :: replace2 p1 p2 r (b2 :: rest)
  | bs => bs

/-- Unescape one JSON-pointer token: `~1` becomes `/`, then `~0` becomes `~`. -/
def ptrUnescape (tok : Bytes) : Bytes := replace2 126 48 126 (replace2 126 49 47 tok)

/-- Split a byte string at every occurrence of `sep` (Rust `split`). -/
def splitByte (sep : Nat) : Bytes → List Bytes
  | [] => [[]]
  | b :: rest =>
    if b = sep then [] :: splitByte sep rest
    else
      match splitByte sep rest with
      | [] => [[b]]
      | p :: ps => (b :: p) :: ps

/-- serde_json's private `parse_index`: a pointer token addresses an array
element when it is all digits with no redundant leading zero. -/
def parseIdxTok (t : Bytes) : Option Nat :=
  if t = [] then none
  else if t.head? = some 43 then none
  else if t.head? = some 48 ∧ t.length ≠ 1 then none
  else if t.all fun b => decide (48 ≤ b) && decide (b ≤ 57) then some (digitsToNat t)
  else none

/-- One navigation step of `Value::pointer`. -/
def ptrStep (v : Value) (tok : Bytes) : Option Value :=
  match v with
  | .obj m => alookup m tok
  | .arr l => (parseIdxTok tok).bind fun i => l.get? i
  | _ => none

/-- `serde_json::Value::pointer`: empty pointer returns the value itself, a
pointer not starting with `/` returns nothing, otherwise the slash-separated
tokens are unescaped and followed through objects and arrays. -/
def jsonPtr (v : Value) (p : Bytes) : Option Value :=
  match p with
  | [] => some v
  | 47 :: rest =>
    ((splitByte 47 rest).map ptrUnescape).foldl (fun acc tok => acc.bind fun w => ptrStep w tok) (some v)
  | _ => none

/-- `index_cf_name` from src/lib.rs: the column family for index `index_name`
of record type `ref_type` is named `#idx_<ref_type>_<index_name>`. -/
def index_cf_name (ref_type index_name : Bytes) : Bytes :=
  sbytes "#idx_" ++ ref_type ++ sbytes "_" ++ index_name

/-- `index_key` from src/lib.rs: for each pointer in `on`, the serialized
pointed-to value (serialized null when the pointer finds nothing) followed by a
zero byte; then the serialized record key. -/
def index_key (onP : List Bytes) (key : Bytes) (value : Value) : Bytes :=
  match onP with
  | [] => key
  | o :: rest =>
    (match jsonPtr value o with
     | some v2 => encode v2
     | none => encode .null) ++ 0 :: index_key rest key value

/-- `values_key` from src/lib.rs: the serialized values separated by zero
bytes (with a trailing zero byte after each value). -/
def values_key : List Value → Bytes
  | [] => []
  | v :: rest => encode v ++ 0 :: values_key rest

/-- A storage namespace (RocksDB column family): ordered association of byte
keys to byte values. -/
abbrev Namespace := List (Bytes × Bytes)

/-- Ordered insert-or-replace into a namespace, keeping keys sorted by
byte-lexicographic order (the storage engine's key order). -/
def nsPut : Namespace → Bytes → Bytes → Namespace
  | [], k, v => [(k, v)]
  | e :: rest, k, v =>
    if e.1 = k then (k, v) :: rest
    else if bytesLt k e.1 then (k, v) :: e :: rest
    else e :: nsPut rest k v

/-- Delete a key from a namespace. -/
def nsDel (ns : Namespace) (k : Bytes) : Namespace := ns.filter fun e => !decide (e.1 = k)

/-- One write-batch operation (`WriteBatch::put_cf` / `delete_cf`). -/
inductive BatchOp where
  | put (cf : Bytes) (k v : Bytes) : BatchOp
  | del (cf : Bytes) (k : Bytes) : BatchOp

/-- The column family an operation addresses. -/
def BatchOp.cfName : BatchOp → Bytes
  | .put cf _ _ => cf
  | .del cf _ => cf

/-- The set of open column families, by name. -/
abbrev CFs := List (Bytes × Namespace)

/-- Apply a function to the named column family, if open. -/
def cfModify (cfs : CFs) (name : Bytes) (f : Namespace → Namespace) : CFs :=
  cfs.map fun e => if e.1 = name then (e.1, f e.2) else e

/-- Apply one batch operation to the column families. -/
def applyOp (cfs : CFs) : BatchOp → CFs
  | .put cf k v => cfModify cfs cf fun ns => nsPut ns k v
  | .del cf k => cfModify cfs cf fun ns => nsDel ns k

/-- Atomically apply a write batch, in operation order (`DB::write`). -/
def writeBatch (cfs : CFs) (ops : List BatchOp) : CFs := ops.foldl applyOp cfs

/-- The database handle: open column families plus the in-memory metadata
(`Metadata.indices`: record type, then index name, then the pointers). -/
structure EQLDB where
  cfs : CFs
  indices : List (Bytes × List (Bytes × List Bytes))

/-- Open (create if missing) a column family (`DB::create_cf` guarded by a
`cf_handle` check, as in `batch_insert`). -/
def create_cf (db : EQLDB) (name : Bytes) : EQLDB :=
  if (alookup db.cfs name).isSome then db else { db with cfs := db.cfs ++ [(name, [])] }

/-- A record as produced by the executor (`EQLRecord`). -/
structure EQLRecord where
  key : Value
  value : Value

/-- `batch_insert` from src/lib.rs: ensure the record column family, write the
serialized record, then write one index entry per registered index whose
column family is open; a record type never seen before is registered in the
metadata with no indices. -/
def batch_insert (db : EQLDB) (batch : List BatchOp) (rec_type : Bytes) (key value : Value) :
    EQLDB × List BatchOp :=
  let db1 := create_cf db rec_type
  let kv := encode key
  let batch1 := batch ++ [BatchOp.put rec_type kv (encode value)]
  match alookup db1.indices rec_type with
  | some idxs =>
    (db1,
      idxs.foldl
        (fun b idx =>
          let idx_cf := index_cf_name rec_type idx.1
          if (alookup db1.cfs idx_cf).isSome then
            b ++ [BatchOp.put idx_cf (index_key idx.2 kv value) kv]
          else b)
        batch1)
  | none => ({ db1 with indices := db1.indices ++ [(rec_type, [])] }, batch1)

/-- `insert` from src/lib.rs: a `batch_insert` into a fresh batch, committed. -/
def insert (db : EQLDB) (rec_type : Bytes) (key value : Value) : EQLDB :=
  let p := batch_insert db [] rec_type key value
  { p.1 with cfs := writeBatch p.1.cfs p.2 }

/-- `get` from src/lib.rs: read the serialized record and decode it (the
decode models the `from_slice(..).unwrap()`, defaulting on undecodable bytes,
which no state produced by the API contains).  Named `getRecord` because a
bare `get` is ambiguous in Lean. -/
def getRecord (db : EQLDB) (rec_type : Bytes) (key : Value) : Option Value :=
  match alookup db.cfs rec_type with
  | some ns => (alookup ns (encode key)).map fun bs => (decode bs).getD .null
  | none => none

/-- `batch_delete` from src/lib.rs: if the record column family is open, read
the current record value, delete the index entries computed from it for every
registered index, then delete the record itself. -/
def batch_delete (db : EQLDB) (batch : List BatchOp) (rec_type : Bytes) (key : Value) :
    List BatchOp :=
  match alookup db.cfs rec_type with
  | none => batch
  | some ns =>
    let kv := encode key
    let batch1 :=
      match alookup db.indices rec_type with
      | some idxs =>
        if idxs.isEmpty then batch
        else
          match alookup ns kv with
          | some vbs =>
            let value := (decode vbs).getD .null
            idxs.foldl
              (fun b idx =>
                let idx_cf := index_cf_name rec_type idx.1
                if (alookup db.cfs idx_cf).isSome then
                  b ++ [BatchOp.del idx_cf (index_key idx.2 kv value)]
                else b)
              batch
          | none => batch
      | none => batch
    batch1 ++ [BatchOp.del rec_type kv]

/-- `delete` from src/lib.rs: a `batch_delete` into a fresh batch, committed. -/
def delete (db : EQLDB) (rec_type : Bytes) (key : Value) : EQLDB :=
  { db with cfs := writeBatch db.cfs (batch_delete db [] rec_type key) }

/-- `write` from src/lib.rs: commit a caller-built batch. -/
def write (db : EQLDB) (batch : List BatchOp) : EQLDB :=
  { db with cfs := writeBatch db.cfs batch }

/-- Duplicate-index error (`MetadataError::DuplicateIndex`). -/
inductive MetadataError where
  | DuplicateIndex (rec_type index_name : Bytes) : MetadataError

/-- Insert into a sorted association list, replacing an existing key
(`BTreeMap::insert`), keeping keys in byte-lexicographic order. -/
def sortedInsert : List (Bytes × Value) → Bytes → Value → List (Bytes × Value)
  | [], k, v => [(k, v)]
  | e :: rest, k, v =>
    if e.1 = k then (k, v) :: rest
    else if bytesLt k e.1 then (k, v) :: e :: rest
    else e :: sortedInsert rest k v

/-- Split a byte string at every zero byte (`split(|u| *u == 0)`). -/
def splitOnZero : Bytes → List Bytes
  | [] => [[]]
  | 0 :: rest => [] :: splitOnZero rest
  | b :: rest =>
    match splitOnZero rest with
    | [] => [[b]]
    | p :: ps => (b :: p) :: ps

/-- `extract_from_index_key` from src/lib.rs: split the index key at zero
bytes, pair the parts with the requested output names (zip stops at the
shorter list), decode each named part, and collect the named parts into a
sorted map (`BTreeMap`), skipping empty names. -/
def extract_from_index_key (k : Bytes) (keys : List Bytes) : Value :=
  .obj (((splitOnZero k).zip keys).foldl
    (fun acc p => if p.2.isEmpty then acc else sortedInsert acc p.2 ((decode p.1).getD .null)) [])

/-- `extract_from_value` from src/lib.rs: on an object, keep only the named
fields (collected into a sorted map); any other value passes unchanged. -/
def extract_from_value (value : Value) (names : List Bytes) : Value :=
  match value with
  | .obj m =>
    .obj ((names.filterMap fun n => (alookup m n).map fun v => (n, v)).foldl
      (fun acc p => sortedInsert acc p.1 p.2) [])
  | _ => value

/-- `merge_values` from src/lib.rs: when both values are objects and the first
is non-empty, add each field of the first that the second lacks; otherwise the
second value is returned unchanged. -/
def merge_values (first : Value) (second : Value) : Value :=
  match first, second with
  | .obj m1, .obj m2 =>
    if m1.isEmpty then .obj m2
    else .obj (m1.foldl (fun acc kv => if (alookup acc kv.1).isSome then acc else sortedInsert acc kv.1 kv.2) m2)
  | _, _ => second

/-- `RecordExtract` from src/lib.rs: how to derive a value from a record. -/
inductive RecordExtract where
  | Key : RecordExtract
  | Value : RecordExtract
  | Pointer (p : Bytes) : RecordExtract
  | Function (f : EQLRecord → Option Value) : RecordExtract

/-- `RecordExtract::apply` from src/lib.rs. -/
def applyExtract (e : RecordExtract) (rec : EQLRecord) : Option Value :=
  match e with
  | .Key => some rec.key
  | .Value => some rec.value
  | .Pointer p => jsonPtr rec.value p
  | .Function f => f rec

/-- `RecordExtract::multiple` from src/lib.rs: the values obtained by the
extracts that produce one. -/
def multipleExtract (exs : List RecordExtract) (rec : EQLRecord) : List Value :=
  exs.filterMap fun e => applyExtract e rec

/-- The operator tree (`Operation` from src/lib.rs). -/
inductive Operation where
  | Scan (name : Bytes) : Operation
  | KeyLookup (name : Bytes) (key : Value) : Operation
  | Extract (names : List Bytes) (operation : Operation) : Operation
  | Augment (value : Value) (operation : Operation) : Operation
  | IndexLookup (name index_name : Bytes) (values : List Value) (keys : List Bytes) : Operation
  | NestedLoops (first : Operation) (second : EQLRecord → Operation) : Operation
  | HashLookup (build : Operation) (build_hash : RecordExtract)
      (probe : Operation) (probe_hash : RecordExtract)
      (join : Option EQLRecord × EQLRecord → Option EQLRecord) : Operation
  | Merge (first : Operation) (first_key : List RecordExtract)
      (second : Operation) (second_key : List RecordExtract)
      (join : Option EQLRecord × Option EQLRecord → Option EQLRecord) : Operation

/-- The scan branch of `execute`: every record of the column family, in stored
key order, decoded. -/
def executeScan (db : EQLDB) (name : Bytes) : List EQLRecord :=
  match alookup db.cfs name with
  | some ns => ns.map fun e => ⟨(decode e.1).getD .null, (decode e.2).getD .null⟩
  | none => []

/-- The index-lookup branch of `execute`: with no component values the whole
index is iterated; otherwise iteration starts at the concatenated serialized
components (each followed by a zero byte) and stops before the same bytes
with the final zero byte replaced by one (`u.pop(); u.push(1)`), modelling the
forward iterator with an exclusive upper bound.  Each entry decodes its stored
record key and names the requested index-key parts. -/
def executeIndexLookup (db : EQLDB) (name index_name : Bytes) (values : List Value)
    (keys : List Bytes) : List EQLRecord :=
  match alookup db.cfs (index_cf_name name index_name) with
  | none => []
  | some ns =>
    if values.isEmpty then
      ns.map fun e => ⟨(decode e.2).getD .null, extract_from_index_key e.1 keys⟩
    else
      let v := values_key values
      let u := v.dropLast ++ [1]
      (ns.filter fun e => !bytesLt e.1 v && bytesLt e.1 u).map
        fun e => ⟨(decode e.2).getD .null, extract_from_index_key e.1 keys⟩

/-- `add_index` from src/lib.rs: register the record type if unseen, fail on a
duplicate index name, open the index column family, register the index, then
back-fill by scanning the type while accumulating a write batch that is
flushed whenever it exceeds 1000 operations.  As in the source, the batch
left over when the fold finishes is dropped without being written. -/
def add_index (db : EQLDB) (rec_type idx_name : Bytes) (onP : List Bytes) :
    Except MetadataError EQLDB :=
  let db1 :=
    if (alookup db.indices rec_type).isSome then db
    else { db with indices := db.indices ++ [(rec_type, [])] }
  let m := (alookup db1.indices rec_type).getD []
  if (alookup m idx_name).isSome then
    .error (.DuplicateIndex rec_type idx_name)
  else
    let idx_cf := index_cf_name rec_type idx_name
    let db2 := create_cf db1 idx_cf
    let db3 := { db2 with indices := aset db2.indices rec_type (aset m idx_name onP) }
    let recs := executeScan db3 rec_type
    let folded :=
      recs.foldl
        (fun (p : EQLDB × List BatchOp) rec =>
          let kv := encode rec.key
          let b := p.2 ++ [BatchOp.put idx_cf (index_key onP kv rec.value) kv]
          if b.length > 1000 then ({ p.1 with cfs := writeBatch p.1.cfs b }, [])
          else (p.1, b))
        (db3, [])
    .ok folded.1

/-- `delete_index` from src/lib.rs: unregister the index and drop its column
family; a no-op when the record type is unknown. -/
def delete_index (db : EQLDB) (rec_type idx_name : Bytes) : EQLDB :=
  match alookup db.indices rec_type with
  | none => db
  | some m =>
    let idx_cf := index_cf_name rec_type idx_name
    { db with
      indices := aset db.indices rec_type (m.filter fun e => !decide (e.1 = idx_name)),
      cfs := db.cfs.filter fun e => !decide (e.1 = idx_cf) }

/-- One iteration state of the merge loop of `execute`: the current record of
each side (`orec1`, `orec2`), the rest of each input, with fuel bounding the
number of iterations; `none` is returned when the fuel runs out before the
loop condition `orec1.is_some() || orec2.is_some()` turns false. -/
def mergeLoopF (join : Option EQLRecord × Option EQLRecord → Option EQLRecord)
    (k1 k2 : EQLRecord → Bytes) :
    Nat → Option EQLRecord → List EQLRecord → Option EQLRecord → List EQLRecord →
    Option (List EQLRecord)
  | _, none, _, none, _ => some []
  | 0, _, _, _, _ => none
  | fuel + 1, some rec1, it1, some rec2, it2 =>
    let b1 := k1 rec1
    let b2 := k2 rec2
    if bytesLt b1 b2 then
      (mergeLoopF join k1 k2 fuel it1.head? it1.tail (some rec2) it2).map
        fun v => (join (some rec1, none)).toList ++ v
    else if bytesLt b2 b1 then
      (mergeLoopF join k1 k2 fuel (some rec1) it1 it2.head? it2.tail).map
        fun v => (join (none, some rec2)).toList ++ v
    else
      (mergeLoopF join k1 k2 fuel (some rec1) it1 it2.head? it2.tail).map
        fun v => (join (some rec1, some rec2)).toList ++ v
  | fuel + 1, some rec1, it1, none, it2 =>
    (mergeLoopF join k1 k2 fuel it1.head? it1.tail none it2).map
      fun v => (join (some rec1, none)).toList ++ v
  | fuel + 1, none, it1, some rec2, it2 =>
    (mergeLoopF join k1 k2 fuel none it1 it2.head? it2.tail).map
      fun v => (join (none, some rec2)).toList ++ v

/-- The merge branch of `execute`: run the merge loop from the first element
of each input, with fuel equal to the total input length (each iteration of
the source loop consumes exactly one element, so this fuel suffices). -/
def mergeExec (join : Option EQLRecord × Option EQLRecord → Option EQLRecord)
    (k1 k2 : EQLRecord → Bytes) (l1 l2 : List EQLRecord) : List EQLRecord :=
  (mergeLoopF join k1 k2 (l1.length + l2.length) l1.head? l1.tail l2.head? l2.tail).getD []

/-- The build side of the hash-lookup branch of `execute`: each build record
whose hash extract produces a value contributes a pair keyed by the display
form of that value (`format!` on a JSON value prints its compact serialization,
so the key is the value's canonical encoding). -/
def buildPairs (build_hash : RecordExtract) (recs : List EQLRecord) : List (Bytes × EQLRecord) :=
  recs.flatMap fun rec => ((applyExtract build_hash rec).map fun s => (encode s, rec)).toList

/-- Lookup in the collected build map: `collect::<HashMap<_,_>>` keeps the
last pair written for a key, so lookup scans the pairs from the end. -/
def hmGet (pairs : List (Bytes × EQLRecord)) (k : Bytes) : Option EQLRecord :=
  alookup pairs.reverse k

/-- The probe side of the hash-lookup branch of `execute`: for each probe
record whose hash extract produces a value, call the join with the matching
build record (if any); probe records without a hash are dropped, and empty
join results are dropped. -/
def probeExec (probe_hash : RecordExtract)
    (join : Option EQLRecord × EQLRecord → Option EQLRecord)
    (pairs : List (Bytes × EQLRecord)) (recs : List EQLRecord) : List EQLRecord :=
  recs.flatMap fun rec =>
    match applyExtract probe_hash rec with
    | none => []
    | some h => (join (hmGet pairs (encode h), rec)).toList

/-- `execute` from src/lib.rs, interpreting an operator tree into the list of
records its lazy iterator yields.  The fuel models the Rust call stack: it
decreases on every recursive interpretation, and in particular bounds the
depth of operator trees produced by nested-loops callbacks (which can recurse
unboundedly in the source); no claim below depends on the fuel-exhausted
result. -/
def execute : Nat → EQLDB → Operation → List EQLRecord
  | 0, _, _ => []
  | fuel + 1, db, op =>
    match op with
    | .Scan name => executeScan db name
    | .KeyLookup name key =>
      (match alookup db.cfs name with
       | some ns => ((alookup ns (encode key)).map fun bs =>
           (⟨key, (decode bs).getD .null⟩ : EQLRecord)).toList
       | none => [])
    | .Extract names op1 =>
      (execute fuel db op1).map fun rec => { rec with value := extract_from_value rec.value names }
    | .Augment value op1 =>
      (execute fuel db op1).map fun rec => { rec with value := merge_values value rec.value }
    | .IndexLookup name index_name values keys => executeIndexLookup db name index_name values keys
    | .NestedLoops first second =>
      (execute fuel db first).flatMap fun rec => execute fuel db (second rec)
    | .HashLookup build build_hash probe probe_hash join =>
      probeExec probe_hash join (buildPairs build_hash (execute fuel db build)) (execute fuel db probe)
    | .Merge first first_key second second_key join =>
      mergeExec join
        (fun r => values_key (multipleExtract first_key r))
        (fun r => values_key (multipleExtract second_key r))
        (execute fuel db first) (execute fuel db second)

/-- Modelled from the spec: the step behaviour §4.6 ascribes to MergeJoin.  On
a strictly smaller left key emit the one-sided left join and advance the left
input; on a strictly greater left key emit the one-sided right join and
advance the right input; on equal keys emit the two-sided join and advance
only the right input; once one side is exhausted flush the other through
one-sided joins; empty join results are dropped. -/
def mergeSpec (join : Option EQLRecord × Option EQLRecord → Option EQLRecord)
    (k1 k2 : EQLRecord → Bytes) : List EQLRecord → List EQLRecord → List EQLRecord
  | [], [] => []
  | rec1 :: it1, [] => (join (some rec1, none)).toList ++ mergeSpec join k1 k2 it1 []
  | [], rec2 :: it2 => (join (none, some rec2)).toList ++ mergeSpec join k1 k2 [] it2
  | rec1 :: it1, rec2 :: it2 =>
    if bytesLt (k1 rec1) (k2 rec2) then
      (join (some rec1, none)).toList ++ mergeSpec join k1 k2 it1 (rec2 :: it2)
    else if bytesLt (k2 rec2) (k1 rec1) then
      (join (none, some rec2)).toList ++ mergeSpec join k1 k2 (rec1 :: it1) it2
    else
      (join (some rec1, some rec2)).toList ++ mergeSpec join k1 k2 (rec1 :: it1) it2
termination_by l1 l2 => l1.length + l2.length

/-- `ScriptedRecordExtract` from src/script.rs: the parseable mirror of a
record extract, with scripted callbacks held as source text. -/
inductive ScriptedRecordExtract where
  | Key : ScriptedRecordExtract
  | Value : ScriptedRecordExtract
  | Pointer (s : List Char) : ScriptedRecordExtract
  | Script (s : List Char) : ScriptedRecordExtract
  | Multiple (l : List ScriptedRecordExtract) : ScriptedRecordExtract


/-- `sp` from src/parse.rs: consume leading whitespace. -/
def spP (i : List Char) : List Char :=
  i.dropWhile fun c => c == ' ' || c == '\t' || c == '\r' || c == '\n'

/-- `tag_no_case`: ASCII case-insensitive literal match, returning the rest. -/
def tagNoCase : List Char → List Char → Option (List Char)
  | [], i => some i
  | _ :: _, [] => none
  | t :: ts, c :: cs => if t.toLower = c.toLower then tagNoCase ts cs else none

/-- `spaced(txt)` from src/parse.rs: whitespace, then a case-insensitive tag. -/
def spaced (txt : List Char) (i : List Char) : Option (List Char) := tagNoCase txt (spP i)

/-- The body consumed by `escaped_transform(none_of("\x22\\"), '\\', ...)`:
ordinary characters are copied, a backslash must introduce one of the three
supported escapes (backslash, quote, `n` for newline), and the scan stops
successfully before a quote or at the end of input. -/
def escapedBody : List Char → Option (List Char × List Char)
  | [] => some ([], [])
  | '\\' :: rest =>
    (match rest with
     | '\\' :: r => (escapedBody r).map fun p => ('\\' :: p.1, p.2)
     | '"' :: r => (escapedBody r).map fun p => ('"' :: p.1, p.2)
     | 'n' :: r => (escapedBody r).map fun p => ('\n' :: p.1, p.2)
     | _ => none)
  | '"' :: rest => some ([], '"' :: rest)
  | c :: rest => (escapedBody rest).map fun p => (c :: p.1, p.2)

/-- `parse_string` from src/parse.rs: either the literal empty string `""` or
a quote-delimited escaped body. -/
def parseStringP : List Char → Option (List Char × List Char)
  | '"' :: '"' :: rest => some ([], rest)
  | '"' :: rest =>
    (escapedBody rest).bind fun p =>
      match p.2 with
      | '"' :: r => some (p.1, r)
      | _ => none
  | _ => none

/-- `name` from src/parse.rs: one or more ASCII alphanumeric or underscore
characters. -/
def nameP (i : List Char) : Option (List Char × List Char) :=
  let isW : Char → Bool := fun c => c.isAlphanum && c.toNat < 128 || c == '_'
  match i.takeWhile isW, i.dropWhile isW with
  | [], _ => none
  | w, r => some (w, r)

/-- `parse_eql_string` from src/parse.rs: a string literal or a bare name,
after leading whitespace (the callers apply `sp` via `spaced`). -/
def parseEqlString (i : List Char) : Option (List Char × List Char) :=
  match parseStringP i with
  | some p => some p
  | none => nameP i

mutual

/-- `parse_record_extract` and its five alternatives from src/parse.rs, tried
in source order (`key`, `value`, `pointer(...)`, `script(...)`, `[...]`).
The fuel bounds the nesting depth of `[...]` groups.  As in the source, the
`script(...)` alternative builds `ScriptedRecordExtract::Pointer` from the
parsed payload. -/
def parseRecordExtract : Nat → List Char → Option (ScriptedRecordExtract × List Char)
  | 0, _ => none
  | fuel + 1, i =>
    match spaced "key".data i with
    | some r => some (.Key, r)
    | none =>
      match spaced "value".data i with
      | some r => some (.Value, r)
      | none =>
        match (spaced "pointer".data i).bind (fun r => spaced "(".data r) with
        | some r =>
          (parseEqlString r).bind fun p =>
            (spaced ")".data p.2).map fun r2 => (ScriptedRecordExtract.Pointer p.1, r2)
        | none =>
          match (spaced "script".data i).bind (fun r => spaced "(".data r) with
          | some r =>
            (parseEqlString r).bind fun p =>
              (spaced ")".data p.2).map fun r2 => (ScriptedRecordExtract.Pointer p.1, r2)
          | none =>
            match spaced "[".data i with
            | some r =>
              (parseExtractList fuel r).bind fun p =>
                (spaced "]".data p.2).map fun r2 => (ScriptedRecordExtract.Multiple p.1, r2)
            | none => none

/-- `separated_list0(sp comma, parse_record_extract)`: zero or more extracts
separated by commas. -/
def parseExtractList : Nat → List Char → Option (List ScriptedRecordExtract × List Char)
  | 0, _ => none
  | fuel + 1, i =>
    match parseRecordExtract fuel i with
    | none => some ([], i)
    | some p =>
      match spaced ",".data p.2 with
      | some r =>
        (parseExtractList fuel r).map fun q => (p.1 :: q.1, q.2)
      | none => some ([p.1], p.2)

end

/-- Record type name used in the concrete scenarios. -/
def tyT : Bytes := sbytes "t"

/-- Index name used in the concrete scenarios. -/
def idxI : Bytes := sbytes "i"

/-- Index pointer used in the concrete scenarios. -/
def ptrA : Bytes := sbytes "/a"

/-- Record key used in the concrete scenarios. -/
def keyK : Value := .str (sbytes "k")

/-- A record value whose field `a` is 1. -/
def valA1 : Value := .obj [(sbytes "a", .num 1)]

/-- A record value whose field `a` is 2. -/
def valA2 : Value := .obj [(sbytes "a", .num 2)]

/-- A freshly opened empty database. -/
def db0 : EQLDB := ⟨[], []⟩

/-- An empty database with index `i` on pointer `/a` of type `t`. -/
def dbIdx : EQLDB := (add_index db0 tyT idxI [ptrA]).toOption.getD db0

/-- `dbIdx` after inserting record `k` with value `a = 1`. -/
def dbC1a : EQLDB := insert dbIdx tyT keyK valA1

/-- `dbC1a` after overwriting record `k` with value `a = 2`. -/
def dbC1 : EQLDB := insert dbC1a tyT keyK valA2

/-- An empty database after inserting record `k` of type `t` (no index yet). -/
def dbRec : EQLDB := insert db0 tyT keyK valA1

/-- `dbRec` after `add_index`, which must back-fill the one existing record. -/
def dbC3 : EQLDB := (add_index dbRec tyT idxI [ptrA]).toOption.getD dbRec

/-- `dbIdx` after inserting record `k1` with value `a = 1`. -/
def dbC7 : EQLDB := insert dbIdx tyT (.str (sbytes "k1")) valA1

/-- A record on which the extract `pointer("/x")` produces no value. -/
def recNoHash : EQLRecord := ⟨Value.null, Value.null⟩

/-- A record on which the extract `pointer("/x")` produces `5`. -/
def recHashed : EQLRecord := ⟨Value.num 1, Value.obj [(sbytes "x", Value.num 5)]⟩

/-- A byte string that does not begin with a decimal digit byte: the
continuations after which the decoder can safely stop scanning a number. -/
def headNotDigit (bs : Bytes) : Prop := ∀ b, bs.head? = some b → ¬(48 ≤ b ∧ b ≤ 57)

theorem bytesLt_append_same : ∀ (p xs ys : Bytes), bytesLt (p ++ xs) (p ++ ys) = bytesLt xs ys
  | [], _, _ => rfl
  | _ :: p, xs, ys => by simp [bytesLt, bytesLt_append_same p xs ys]

theorem bytesLt_append_of_lt :
    ∀ xs ys : Bytes, bytesLt xs ys = true → xs.length = ys.length →
      ∀ xs' ys' : Bytes, bytesLt (xs ++ xs') (ys ++ ys') = true
  | [], [], h, _, _, _ => by simp [bytesLt] at h
  | [], _ :: _, _, hl, _, _ => by simp at hl
  | _ :: _, [], _, hl, _, _ => by simp at hl
  | a :: xs, b :: ys, h, hl, xs', ys' => by
    simp only [bytesLt, List.cons_append] at h ⊢
    by_cases hab : a < b
    · simp [hab]
    · simp only [if_neg hab] at h ⊢
      by_cases hab2 : a = b
      · simp only [if_pos hab2] at h ⊢
        exact bytesLt_append_of_lt xs ys h (by simpa using hl) xs' ys'
      · simp [hab2] at h

theorem bytesLe_refl (x : Bytes) : bytesLe x x = true := by simp [bytesLe]

theorem natDigitsAux_irrel :
    ∀ f g n : Nat, n < f → n < g → natDigitsAux f n = natDigitsAux g n
  | f + 1, g + 1, n, hf, hg => by
    simp only [natDigitsAux]
    by_cases h : n < 10
    · simp [h]
    · have hd : n / 10 < n := Nat.div_lt_self (by omega) (by omega)
      simp only [if_neg h]
      rw [natDigitsAux_irrel f g (n / 10) (by omega) (by omega)]

theorem natDigits_eq (n : Nat) :
    natDigits n = if n < 10 then [48 + n] else natDigits (n / 10) ++ [48 + n % 10] := by
  show natDigitsAux (n + 1) n = _
  by_cases h : n < 10
  · simp [natDigitsAux, h]
  · have hd : n / 10 < n := Nat.div_lt_self (by omega) (by omega)
    simp only [natDigitsAux, if_neg h]
    rw [natDigitsAux_irrel n (n / 10 + 1) (n / 10) (by omega) (by omega)]
    simp [natDigits, h]

theorem natDigits_ne_nil (n : Nat) : natDigits n ≠ [] := by
  rw [natDigits_eq]
  by_cases h : n < 10 <;> simp [h]

theorem natDigits_digit : ∀ n : Nat, ∀ d ∈ natDigits n, 48 ≤ d ∧ d ≤ 57
  | n, d, hd => by
    rw [natDigits_eq] at hd
    by_cases h : n < 10
    · simp [h] at hd
      omega
    · simp only [if_neg h, List.mem_append, List.mem_singleton] at hd
      rcases hd with hd | hd
      · exact natDigits_digit (n / 10) d hd
      · have := Nat.mod_lt n (show 0 < 10 by omega)
        omega
termination_by n => n
decreasing_by exact Nat.div_lt_self (by omega) (by omega)

theorem natDigits_lt :
    ∀ a b : Nat, (natDigits a).length = (natDigits b).length → a < b →
      bytesLt (natDigits a) (natDigits b) = true
  | a, b, hl, hab => by
    by_cases ha : a < 10
    · by_cases hb : b < 10
      · rw [natDigits_eq a, natDigits_eq b] at *
        simp only [if_pos ha, if_pos hb]
        simp [bytesLt]
        omega
      · rw [natDigits_eq a, natDigits_eq b] at hl
        simp only [if_pos ha, if_neg hb] at hl
        have := natDigits_ne_nil (b / 10)
        simp at hl
        rcases List.exists_cons_of_ne_nil this with ⟨x, t, hx⟩
        rw [hx] at hl
        simp at hl
    · have hb : ¬ b < 10 := by omega
      rw [natDigits_eq a, natDigits_eq b] at *
      simp only [if_neg ha, if_neg hb] at *
      have hlen : (natDigits (a / 10)).length = (natDigits (b / 10)).length := by
        simpa using hl
      have hdiv : a / 10 ≤ b / 10 := Nat.div_le_div_right (by omega)
      rcases Nat.lt_or_ge (a / 10) (b / 10) with hlt | hge
      · exact bytesLt_append_of_lt _ _ (natDigits_lt (a / 10) (b / 10) hlen hlt) hlen _ _
      · have heq : a / 10 = b / 10 := by omega
        rw [heq, bytesLt_append_same]
        have h1 := Nat.div_add_mod a 10
        have h2 := Nat.div_add_mod b 10
        simp [bytesLt]
        omega
termination_by _ b => b
decreasing_by exact Nat.div_lt_self (by omega) (by omega)

theorem natDigits_le (a b : Nat) (hl : (natDigits a).length = (natDigits b).length)
    (hab : a ≤ b) : bytesLe (natDigits a) (natDigits b) = true := by
  rcases Nat.lt_or_ge a b with h | h
  · simp [bytesLe, natDigits_lt a b hl h]
  · have : a = b := by omega
    subst this
    exact bytesLe_refl _

theorem hexDigit_pos (n : Nat) : 48 ≤ hexDigit n := by
  unfold hexDigit
  split <;> omega

theorem escapeByte_ne_zero (b : Nat) : ∀ x ∈ escapeByte b, x ≠ 0 := by
  intro x hx
  have h1 := hexDigit_pos (b / 16)
  have h2 := hexDigit_pos (b % 16)
  unfold escapeByte at hx
  split_ifs at hx <;> simp_all <;> omega

theorem encodeStrB_ne_zero (s : Bytes) : ∀ x ∈ encodeStrB s, x ≠ 0 := by
  intro x hx
  unfold encodeStrB at hx
  rcases List.mem_cons.mp hx with hx | hx
  · omega
  rcases List.mem_append.mp hx with hx | hx
  · rcases List.mem_flatten.mp hx with ⟨l, hl, hxl⟩
    rcases List.mem_map.mp hl with ⟨c, _, hc⟩
    rw [← hc] at hxl
    exact escapeByte_ne_zero c x hxl
  · simp at hx
    omega

theorem natDigits_ne_zero (n : Nat) : ∀ x ∈ natDigits n, x ≠ 0 := by
  intro x hx
  have := natDigits_digit n x hx
  omega

mutual

theorem encode_ne_zero : ∀ v : Value, ∀ x ∈ encode v, x ≠ 0
  | .null, x, hx => by simp [encode] at hx; omega
  | .bool true, x, hx => by simp [encode] at hx; omega
  | .bool false, x, hx => by simp [encode] at hx; omega
  | .num n, x, hx => by
    simp only [encode] at hx
    split at hx
    · rcases List.mem_cons.mp hx with hx | hx
      · omega
      · exact natDigits_ne_zero _ x hx
    · exact natDigits_ne_zero _ x hx
  | .str s, x, hx => encodeStrB_ne_zero s x hx
  | .arr vs, x, hx => by
    simp only [encode] at hx
    rcases List.mem_cons.mp hx with hx | hx
    · omega
    rcases List.mem_append.mp hx with hx | hx
    · exact encodeItems_ne_zero vs x hx
    · simp at hx; omega
  | .obj ms, x, hx => by
    simp only [encode] at hx
    rcases List.mem_cons.mp hx with hx | hx
    · omega
    rcases List.mem_append.mp hx with hx | hx
    · exact encodeFields_ne_zero ms x hx
    · simp at hx; omega

theorem encodeItems_ne_zero : ∀ vs : List Value, ∀ x ∈ encodeItems vs, x ≠ 0
  | [], x, hx => by simp [encodeItems] at hx
  | [v], x, hx => encode_ne_zero v x hx
  | v :: w :: rest, x, hx => by
    simp only [encodeItems] at hx
    rcases List.mem_append.mp hx with hx | hx
    · exact encode_ne_zero v x hx
    · rcases List.mem_cons.mp hx with hx | hx
      · omega
      · exact encodeItems_ne_zero (w :: rest) x hx

theorem encodeFields_ne_zero : ∀ ms : List (Bytes × Value), ∀ x ∈ encodeFields ms, x ≠ 0
  | [], x, hx => by simp [encodeFields] at hx
  | [kv], x, hx => by
    simp only [encodeFields] at hx
    rcases List.mem_append.mp hx with hx | hx
    · exact encodeStrB_ne_zero kv.1 x hx
    · rcases List.mem_cons.mp hx with hx | hx
      · omega
      · exact encode_ne_zero kv.2 x hx
  | kv :: lw :: rest, x, hx => by
    simp only [encodeFields, List.mem_append, List.mem_cons, List.append_assoc] at hx
    rcases hx with hx | (hx | hx) | hx | hx
    · exact encodeStrB_ne_zero kv.1 x hx
    · omega
    · exact encode_ne_zero kv.2 x hx
    · omega
    · exact encodeFields_ne_zero (lw :: rest) x hx

end

theorem encode_head :
    ∀ v : Value, ∃ b t, encode v = b :: t ∧
      (b = 110 ∨ b = 116 ∨ b = 102 ∨ b = 45 ∨ (48 ≤ b ∧ b ≤ 57) ∨ b = 34 ∨ b = 91 ∨ b = 123) := by
  intro v
  cases v with
  | null => exact ⟨110, _, rfl, by omega⟩
  | bool b =>
    cases b with
    | false => exact ⟨102, _, rfl, by omega⟩
    | true => exact ⟨116, _, rfl, by omega⟩
  | num n =>
    by_cases hn : n < 0
    · refine ⟨45, natDigits (-n).toNat, ?_, by omega⟩
      simp [encode, hn]
    · rcases List.exists_cons_of_ne_nil (natDigits_ne_nil n.toNat) with ⟨d, t, hd⟩
      have hdig := natDigits_digit n.toNat d (by rw [hd]; exact List.mem_cons_self _ _)
      refine ⟨d, t, ?_, by omega⟩
      simp [encode, hn, hd]
  | str s => exact ⟨34, _, rfl, by omega⟩
  | arr vs => exact ⟨91, _, rfl, by omega⟩
  | obj ms => exact ⟨123, _, rfl, by omega⟩

theorem encode_ne_nil (v : Value) : encode v ≠ [] := by
  rcases encode_head v with ⟨b, t, hbt, _⟩
  simp [hbt]

theorem hexVal_hexDigit (n : Nat) (h : n < 16) : hexVal (hexDigit n) = some n := by
  unfold hexVal hexDigit
  split_ifs <;> first
  | (simp only [Option.some.injEq]; omega)
  | omega

theorem parseStrBody_escape :
    ∀ (s : Bytes) (rest : Bytes),
      parseStrBody ((s.map escapeByte).flatten ++ 34 :: rest) = some (s, rest)
  | [], rest => by simp [parseStrBody]
  | b :: s', rest => by
    have ih := parseStrBody_escape s' rest
    show parseStrBody ((escapeByte b ++ (s'.map escapeByte).flatten) ++ 34 :: rest) = _
    rw [List.append_assoc]
    by_cases h1 : b = 34
    · rw [show escapeByte b = [92, 34] by simp [escapeByte, h1]]
      subst h1
      simp [parseStrBody, parseEsc, ih]
    · by_cases h2 : b = 92
      · rw [show escapeByte b = [92, 92] by simp [escapeByte, h1, h2]]
        subst h2
        simp [parseStrBody, parseEsc, ih]
      · by_cases h3 : b = 8
        · rw [show escapeByte b = [92, 98] by simp [escapeByte, h1, h2, h3]]
          subst h3
          simp [parseStrBody, parseEsc, ih]
        · by_cases h4 : b = 9
          · rw [show escapeByte b = [92, 116] by simp [escapeByte, h1, h2, h3, h4]]
            subst h4
            simp [parseStrBody, parseEsc, ih]
          · by_cases h5 : b = 10
            · rw [show escapeByte b = [92, 110] by simp [escapeByte, h1, h2, h3, h4, h5]]
              subst h5
              simp [parseStrBody, parseEsc, ih]
            · by_cases h6 : b = 12
              · rw [show escapeByte b = [92, 102] by simp [escapeByte, h1, h2, h3, h4, h5, h6]]
                subst h6
                simp [parseStrBody, parseEsc, ih]
              · by_cases h7 : b = 13
                · rw [show escapeByte b = [92, 114] by simp [escapeByte, h1, h2, h3, h4, h5, h6, h7]]
                  subst h7
                  simp [parseStrBody, parseEsc, ih]
                · by_cases h8 : b < 32
                  · rw [show escapeByte b = [92, 117, 48, 48, hexDigit (b / 16), hexDigit (b % 16)] by
                      simp [escapeByte, h1, h2, h3, h4, h5, h6, h7, h8]]
                    have hv1 : hexVal (hexDigit (b / 16)) = some (b / 16) :=
                      hexVal_hexDigit _ (by omega)
                    have hv2 : hexVal (hexDigit (b % 16)) = some (b % 16) :=
                      hexVal_hexDigit _ (by omega)
                    have hv0 : hexVal 48 = some 0 := rfl
                    simp [parseStrBody, parseEsc, hv0, hv1, hv2, ih]
                    omega
                  · rw [show escapeByte b = [b] by simp [escapeByte, h1, h2, h3, h4, h5, h6, h7, h8]]
                    simp [parseStrBody, h1, h2, ih]

theorem spanDigits_append :
    ∀ ds rest : Bytes, (∀ d ∈ ds, 48 ≤ d ∧ d ≤ 57) → headNotDigit rest →
      spanDigits (ds ++ rest) = (ds, rest)
  | [], rest, _, hr => by
    cases rest with
    | nil => rfl
    | cons b r =>
      have := hr b rfl
      simp only [List.nil_append, spanDigits]
      rw [if_neg this]
  | d :: ds, rest, hd, hr => by
    have hdd := hd d (List.mem_cons_self _ _)
    simp only [List.cons_append, spanDigits, List.append_eq]
    rw [if_pos hdd, spanDigits_append ds rest (fun x hx => hd x (List.mem_cons_of_mem _ hx)) hr]

theorem digitsToNat_aux :
    ∀ n acc : Nat,
      List.foldl (fun acc d => acc * 10 + (d - 48)) acc (natDigits n) =
        acc * 10 ^ (natDigits n).length + n
  | n, acc => by
    rw [natDigits_eq]
    by_cases h : n < 10
    · simp only [if_pos h, List.foldl_cons, List.foldl_nil, List.length_singleton, pow_one]
      omega
    · have hd : n / 10 < n := Nat.div_lt_self (by omega) (by omega)
      simp only [if_neg h, List.foldl_append, List.foldl_cons, List.foldl_nil,
        List.length_append, List.length_singleton]
      rw [digitsToNat_aux (n / 10) acc]
      have h1 := Nat.div_add_mod n 10
      have h2 : (acc * 10 ^ (natDigits (n / 10)).length + n / 10) * 10 + (48 + n % 10 - 48) =
          acc * (10 ^ (natDigits (n / 10)).length * 10) + (n / 10 * 10 + n % 10) := by ring_nf; omega
      rw [h2, pow_succ]
      omega
termination_by n _ => n

theorem digitsToNat_natDigits (n : Nat) : digitsToNat (natDigits n) = n := by
  unfold digitsToNat
  rw [digitsToNat_aux n 0]
  simp

theorem fuelNeedL_length : ∀ vs : List Value, vs.length ≤ fuelNeedL vs
  | [] => by simp [fuelNeedL]
  | v :: rest => by
    have := fuelNeedL_length rest
    simp only [fuelNeedL, List.length_cons]
    omega

theorem fuelNeedM_length : ∀ ms : List (Bytes × Value), ms.length ≤ fuelNeedM ms
  | [] => by simp [fuelNeedM]
  | kv :: rest => by
    have := fuelNeedM_length rest
    simp only [fuelNeedM, List.length_cons]
    omega

theorem headNotDigit_cons (b : Nat) (bs : Bytes) (h : ¬(48 ≤ b ∧ b ≤ 57)) :
    headNotDigit (b :: bs) := by
  intro x hx
  simp only [List.head?_cons, Option.some.injEq] at hx
  omega

theorem headNotDigit_nil : headNotDigit [] := by
  intro x hx
  simp at hx

theorem encodeItems_cons_head (v0 : Value) (vs' : List Value) :
    ∃ b0 X, encodeItems (v0 :: vs') = b0 :: X ∧ b0 ≠ 93 := by
  rcases encode_head v0 with ⟨b0, t0, hb0, hb0r⟩
  cases vs' with
  | nil => exact ⟨b0, t0, by simp [encodeItems, hb0], by omega⟩
  | cons w rest =>
    refine ⟨b0, t0 ++ 44 :: encodeItems (w :: rest), ?_, by omega⟩
    simp [encodeItems, hb0]

theorem parseArrRest_nonempty (pv : Bytes → Option (Value × Bytes)) (fuel : Nat)
    (v0 : Value) (vs' : List Value) (tail : Bytes) :
    parseArrRest pv fuel (encodeItems (v0 :: vs') ++ tail) =
      (parseItemsWith pv fuel (encodeItems (v0 :: vs') ++ tail)).map fun p => (.arr p.1, p.2) := by
  rcases encodeItems_cons_head v0 vs' with ⟨b0, X, hX, hb0⟩
  rw [hX]
  simp [parseArrRest, hb0]

theorem encodeFields_cons_head (kv : Bytes × Value) (ms' : List (Bytes × Value)) :
    ∃ X, encodeFields (kv :: ms') = 34 :: X := by
  cases ms' with
  | nil =>
    exact ⟨(kv.1.map escapeByte).flatten ++ 34 :: 58 :: encode kv.2,
      by simp [encodeFields, encodeStrB]⟩
  | cons lw rest =>
    exact ⟨(kv.1.map escapeByte).flatten ++ 34 :: 58 :: (encode kv.2 ++ 44 :: encodeFields (lw :: rest)),
      by simp [encodeFields, encodeStrB]⟩

theorem parseObjRest_nonempty (pv : Bytes → Option (Value × Bytes)) (fuel : Nat)
    (kv : Bytes × Value) (ms' : List (Bytes × Value)) (tail : Bytes) :
    parseObjRest pv fuel (encodeFields (kv :: ms') ++ tail) =
      (parseFieldsWith pv fuel (encodeFields (kv :: ms') ++ tail)).map fun p => (.obj p.1, p.2) := by
  rcases encodeFields_cons_head kv ms' with ⟨X, hX⟩
  rw [hX]
  simp [parseObjRest]

theorem fuelNeed_pos (v : Value) : 1 ≤ fuelNeed v := by
  cases v <;> simp [fuelNeed]

theorem fuelNeed_le_headL (v : Value) (vs : List Value) : fuelNeed v ≤ fuelNeedL (v :: vs) := by
  have h := Nat.le_max_left (fuelNeed v) (fuelNeedL vs)
  have heq : fuelNeedL (v :: vs) = max (fuelNeed v) (fuelNeedL vs) + 1 := rfl
  omega

theorem fuelNeedL_le_tail (v : Value) (vs : List Value) : fuelNeedL vs ≤ fuelNeedL (v :: vs) := by
  have h := Nat.le_max_right (fuelNeed v) (fuelNeedL vs)
  have heq : fuelNeedL (v :: vs) = max (fuelNeed v) (fuelNeedL vs) + 1 := rfl
  omega

theorem fuelNeed_le_headM (kv : Bytes × Value) (ms : List (Bytes × Value)) :
    fuelNeed kv.2 ≤ fuelNeedM (kv :: ms) := by
  have h := Nat.le_max_left (fuelNeed kv.2) (fuelNeedM ms)
  have heq : fuelNeedM (kv :: ms) = max (fuelNeed kv.2) (fuelNeedM ms) + 1 := rfl
  omega

theorem fuelNeedM_le_tail (kv : Bytes × Value) (ms : List (Bytes × Value)) :
    fuelNeedM ms ≤ fuelNeedM (kv :: ms) := by
  have h := Nat.le_max_right (fuelNeed kv.2) (fuelNeedM ms)
  have heq : fuelNeedM (kv :: ms) = max (fuelNeed kv.2) (fuelNeedM ms) + 1 := rfl
  omega

mutual

theorem parse_enc :
    ∀ (v : Value) (fuel : Nat) (rest : Bytes), fuelNeed v ≤ fuel → headNotDigit rest →
      parseValue fuel (encode v ++ rest) = some (v, rest)
  | .null, fuel, rest, hf, _ => by
    obtain ⟨f, rfl⟩ : ∃ f, fuel = f + 1 := by
      have h0 := fuelNeed_pos (Value.null)
      exact ⟨fuel - 1, by omega⟩
    simp [encode, parseValue, parseLit]
  | .bool true, fuel, rest, hf, _ => by
    obtain ⟨f, rfl⟩ : ∃ f, fuel = f + 1 := by
      have h0 := fuelNeed_pos (Value.bool true)
      exact ⟨fuel - 1, by omega⟩
    simp [encode, parseValue, parseLit]
  | .bool false, fuel, rest, hf, _ => by
    obtain ⟨f, rfl⟩ : ∃ f, fuel = f + 1 := by
      have h0 := fuelNeed_pos (Value.bool false)
      exact ⟨fuel - 1, by omega⟩
    simp [encode, parseValue, parseLit]
  | .num n, fuel, rest, hf, hr => by
    obtain ⟨f, rfl⟩ : ∃ f, fuel = f + 1 := by
      have h0 := fuelNeed_pos (Value.num n)
      exact ⟨fuel - 1, by omega⟩
    by_cases hn : n < 0
    · have hspan := spanDigits_append (natDigits (-n).toNat) rest (natDigits_digit _) hr
      have hne := natDigits_ne_nil (-n).toNat
      have hm : (((-n).toNat : Int)) = -n := Int.toNat_of_nonneg (by omega)
      simp only [encode, if_pos hn, List.cons_append]
      simp [parseValue, hspan, hne, digitsToNat_natDigits, hm]
    · rcases List.exists_cons_of_ne_nil (natDigits_ne_nil n.toNat) with ⟨d, ds, hd⟩
      have hdig := natDigits_digit n.toNat
      have hd0 := hdig d (by rw [hd]; exact List.mem_cons_self _ _)
      have hspan := spanDigits_append (natDigits n.toNat) rest hdig hr
      have hdd : digitsToNat (natDigits n.toNat) = n.toNat := digitsToNat_natDigits _
      have hInt : ((n.toNat : Int)) = n := Int.toNat_of_nonneg (by omega)
      rw [hd] at hspan hdd
      simp only [encode, if_neg hn]
      rw [hd]
      simp only [List.cons_append] at hspan ⊢
      simp [parseValue, hspan, hdd, hInt,
        show ¬ d = 110 by omega, show ¬ d = 116 by omega, show ¬ d = 102 by omega,
        show ¬ d = 34 by omega, show ¬ d = 91 by omega, show ¬ d = 123 by omega,
        show ¬ d = 45 by omega, show 48 ≤ d ∧ d ≤ 57 by omega]
  | .str s, fuel, rest, hf, _ => by
    obtain ⟨f, rfl⟩ : ∃ f, fuel = f + 1 := by
      have h0 := fuelNeed_pos (Value.str s)
      exact ⟨fuel - 1, by omega⟩
    have hesc := parseStrBody_escape s rest
    simp only [encode, encodeStrB, List.cons_append, List.append_assoc, List.singleton_append]
    simp [parseValue, hesc]
  | .arr [], fuel, rest, hf, _ => by
    obtain ⟨f, rfl⟩ : ∃ f, fuel = f + 1 := by
      have h0 := fuelNeed_pos (Value.arr [])
      exact ⟨fuel - 1, by omega⟩
    simp [encode, encodeItems, parseValue, parseArrRest]
  | .arr (v0 :: vs'), fuel, rest, hf, _ => by
    obtain ⟨f, rfl⟩ : ∃ f, fuel = f + 1 := by
      have h0 := fuelNeed_pos (Value.arr (v0 :: vs'))
      exact ⟨fuel - 1, by omega⟩
    have hg : fuelNeedL (v0 :: vs') ≤ f := by
      have heq : fuelNeed (Value.arr (v0 :: vs')) = fuelNeedL (v0 :: vs') + 1 := rfl
      omega
    have hlen : (v0 :: vs').length ≤ f := le_trans (fuelNeedL_length _) hg
    have harr := parseArrRest_nonempty (parseValue f) f v0 vs' (93 :: rest)
    have hitems := parse_encL (v0 :: vs') f f rest (by simp) hg hlen
    simp only [encode, List.cons_append, List.append_assoc, List.singleton_append]
    simp [parseValue, harr, hitems]
  | .obj [], fuel, rest, hf, _ => by
    obtain ⟨f, rfl⟩ : ∃ f, fuel = f + 1 := by
      have h0 := fuelNeed_pos (Value.obj [])
      exact ⟨fuel - 1, by omega⟩
    simp [encode, encodeFields, parseValue, parseObjRest]
  | .obj (kv :: ms'), fuel, rest, hf, _ => by
    obtain ⟨f, rfl⟩ : ∃ f, fuel = f + 1 := by
      have h0 := fuelNeed_pos (Value.obj (kv :: ms'))
      exact ⟨fuel - 1, by omega⟩
    have hg : fuelNeedM (kv :: ms') ≤ f := by
      have heq : fuelNeed (Value.obj (kv :: ms')) = fuelNeedM (kv :: ms') + 1 := rfl
      omega
    have hlen : (kv :: ms').length ≤ f := le_trans (fuelNeedM_length _) hg
    have hobj := parseObjRest_nonempty (parseValue f) f kv ms' (125 :: rest)
    have hfields := parse_encM (kv :: ms') f f rest (by simp) hg hlen
    simp only [encode, List.cons_append, List.append_assoc, List.singleton_append]
    simp [parseValue, hobj, hfields]

theorem parse_encL :
    ∀ (vs : List Value) (g f : Nat) (rest : Bytes), vs ≠ [] → fuelNeedL vs ≤ g →
      vs.length ≤ f →
      parseItemsWith (parseValue g) f (encodeItems vs ++ 93 :: rest) = some (vs, rest)
  | [], _, _, _, hne, _, _ => absurd rfl hne
  | [v], g, f, rest, _, hg, hfl => by
    have hgv : fuelNeed v ≤ g := le_trans (fuelNeed_le_headL v []) hg
    obtain ⟨f', rfl⟩ : ∃ f', f = f' + 1 := by
      simp at hfl
      exact ⟨f - 1, by omega⟩
    have hrec := parse_enc v g (93 :: rest) hgv (headNotDigit_cons 93 rest (by omega))
    simp only [encodeItems]
    simp [parseItemsWith, hrec]
  | v0 :: v1 :: vs', g, f, rest, _, hg, hfl => by
    have hgv : fuelNeed v0 ≤ g := le_trans (fuelNeed_le_headL v0 (v1 :: vs')) hg
    have hgL : fuelNeedL (v1 :: vs') ≤ g := le_trans (fuelNeedL_le_tail v0 (v1 :: vs')) hg
    obtain ⟨f', rfl⟩ : ∃ f', f = f' + 1 := by
      simp at hfl
      exact ⟨f - 1, by omega⟩
    have hrec := parse_enc v0 g (44 :: (encodeItems (v1 :: vs') ++ 93 :: rest)) hgv
      (headNotDigit_cons 44 _ (by omega))
    have hih := parse_encL (v1 :: vs') g f' rest (by simp) hgL (by simp at hfl ⊢; omega)
    simp only [encodeItems, List.append_assoc, List.cons_append]
    simp [parseItemsWith, hrec, hih]

theorem parse_encM :
    ∀ (ms : List (Bytes × Value)) (g f : Nat) (rest : Bytes), ms ≠ [] → fuelNeedM ms ≤ g →
      ms.length ≤ f →
      parseFieldsWith (parseValue g) f (encodeFields ms ++ 125 :: rest) = some (ms, rest)
  | [], _, _, _, hne, _, _ => absurd rfl hne
  | [kv], g, f, rest, _, hg, hfl => by
    have hgv : fuelNeed kv.2 ≤ g := le_trans (fuelNeed_le_headM kv []) hg
    obtain ⟨f', rfl⟩ : ∃ f', f = f' + 1 := by
      simp at hfl
      exact ⟨f - 1, by omega⟩
    have hesc := parseStrBody_escape kv.1 (58 :: (encode kv.2 ++ 125 :: rest))
    have hrec := parse_enc kv.2 g (125 :: rest) hgv (headNotDigit_cons 125 rest (by omega))
    simp only [encodeFields, encodeStrB, List.cons_append, List.append_assoc,
      List.singleton_append]
    simp [parseFieldsWith, hesc, hrec]
  | kv :: lw :: ms', g, f, rest, _, hg, hfl => by
    have hgv : fuelNeed kv.2 ≤ g := le_trans (fuelNeed_le_headM kv (lw :: ms')) hg
    have hgM : fuelNeedM (lw :: ms') ≤ g := le_trans (fuelNeedM_le_tail kv (lw :: ms')) hg
    obtain ⟨f', rfl⟩ : ∃ f', f = f' + 1 := by
      simp at hfl
      exact ⟨f - 1, by omega⟩
    have hesc := parseStrBody_escape kv.1
      (58 :: (encode kv.2 ++ 44 :: (encodeFields (lw :: ms') ++ 125 :: rest)))
    have hrec := parse_enc kv.2 g (44 :: (encodeFields (lw :: ms') ++ 125 :: rest)) hgv
      (headNotDigit_cons 44 _ (by omega))
    have hih := parse_encM (lw :: ms') g f' rest (by simp) hgM (by simp at hfl ⊢; omega)
    simp only [encodeFields, encodeStrB, List.cons_append, List.append_assoc,
      List.singleton_append]
    simp [parseFieldsWith, hesc, hrec, hih]

end

mutual

theorem fuelNeed_le_encode : ∀ v : Value, fuelNeed v ≤ (encode v).length + 1
  | .null => by simp [fuelNeed]
  | .bool true => by simp [fuelNeed]
  | .bool false => by simp [fuelNeed]
  | .num n => by simp [fuelNeed]
  | .str s => by simp [fuelNeed]
  | .arr vs => by
    have h := fuelNeedL_le_encode vs
    have heq : fuelNeed (Value.arr vs) = fuelNeedL vs + 1 := rfl
    have hlen : (encode (Value.arr vs)).length = (encodeItems vs).length + 2 := by
      simp [encode]
    omega
  | .obj ms => by
    have h := fuelNeedM_le_encode ms
    have heq : fuelNeed (Value.obj ms) = fuelNeedM ms + 1 := rfl
    have hlen : (encode (Value.obj ms)).length = (encodeFields ms).length + 2 := by
      simp [encode]
    omega

theorem fuelNeedL_le_encode : ∀ vs : List Value, fuelNeedL vs ≤ (encodeItems vs).length + 2
  | [] => by simp [fuelNeedL, encodeItems]
  | [v] => by
    have h := fuelNeed_le_encode v
    have heq : fuelNeedL [v] = max (fuelNeed v) (fuelNeedL []) + 1 := rfl
    have heq2 : fuelNeedL ([] : List Value) = 1 := rfl
    have hlen : encodeItems [v] = encode v := rfl
    have hmax := Nat.max_le.mpr ⟨h, show fuelNeedL [] ≤ (encode v).length + 1 by
      rw [heq2]; omega⟩
    rw [heq, hlen]
    omega
  | v0 :: v1 :: vs' => by
    have h0 := fuelNeed_le_encode v0
    have hL := fuelNeedL_le_encode (v1 :: vs')
    have heq : fuelNeedL (v0 :: v1 :: vs') = max (fuelNeed v0) (fuelNeedL (v1 :: vs')) + 1 := rfl
    have hlen : encodeItems (v0 :: v1 :: vs') = encode v0 ++ 44 :: encodeItems (v1 :: vs') := rfl
    have hene := encode_ne_nil v0
    have hposlen : 1 ≤ (encode v0).length := by
      cases hc : encode v0 with
      | nil => exact absurd hc hene
      | cons a t => simp [hc]
    have hmax := Nat.max_le.mpr (⟨le_trans h0 (by simp only [hlen, List.length_append, List.length_cons]; omega),
      le_trans hL (by simp only [hlen, List.length_append, List.length_cons]; omega)⟩ :
        fuelNeed v0 ≤ (encodeItems (v0 :: v1 :: vs')).length + 1 ∧
        fuelNeedL (v1 :: vs') ≤ (encodeItems (v0 :: v1 :: vs')).length + 1)
    omega

theorem fuelNeedM_le_encode : ∀ ms : List (Bytes × Value), fuelNeedM ms ≤ (encodeFields ms).length + 2
  | [] => by simp [fuelNeedM, encodeFields]
  | [kv] => by
    have h := fuelNeed_le_encode kv.2
    have heq : fuelNeedM [kv] = max (fuelNeed kv.2) (fuelNeedM []) + 1 := rfl
    have heq2 : fuelNeedM ([] : List (Bytes × Value)) = 1 := rfl
    have hlen : encodeFields [kv] = encodeStrB kv.1 ++ 58 :: encode kv.2 := rfl
    have hmax := Nat.max_le.mpr (⟨le_trans h (by simp only [hlen, List.length_append, List.length_cons]; omega),
      by rw [heq2]; omega⟩ :
        fuelNeed kv.2 ≤ (encodeFields [kv]).length + 1 ∧
        fuelNeedM [] ≤ (encodeFields [kv]).length + 1)
    omega
  | kv :: lw :: ms' => by
    have h0 := fuelNeed_le_encode kv.2
    have hM := fuelNeedM_le_encode (lw :: ms')
    have heq : fuelNeedM (kv :: lw :: ms') = max (fuelNeed kv.2) (fuelNeedM (lw :: ms')) + 1 := rfl
    have hlen : encodeFields (kv :: lw :: ms') =
        encodeStrB kv.1 ++ 58 :: encode kv.2 ++ 44 :: encodeFields (lw :: ms') := rfl
    have hmax := Nat.max_le.mpr (⟨le_trans h0 (by simp only [hlen, List.length_append, List.length_cons]; omega),
      le_trans hM (by simp only [hlen, List.length_append, List.length_cons]; omega)⟩ :
        fuelNeed kv.2 ≤ (encodeFields (kv :: lw :: ms')).length + 1 ∧
        fuelNeedM (lw :: ms') ≤ (encodeFields (kv :: lw :: ms')).length + 1)
    omega

end

/-- The codec round trip: decoding the canonical encoding of any value gives
the value back (the contract `from_slice(to_vec(v)) == v` that the record
store relies on). -/
theorem decode_encode (v : Value) : decode (encode v) = some v := by
  unfold decode
  have h := parse_enc v ((encode v).length + 1) [] (fuelNeed_le_encode v) headNotDigit_nil
  rw [List.append_nil] at h
  rw [h]
  rfl

theorem alookup_append {β : Type} :
    ∀ (l1 l2 : List (Bytes × β)) (k : Bytes),
      alookup (l1 ++ l2) k =
        match alookup l1 k with
        | some v => some v
        | none => alookup l2 k
  | [], _, _ => rfl
  | kv :: l1, l2, k => by
    by_cases h : kv.1 = k
    · simp [alookup, h]
    · simp only [List.cons_append, alookup, if_neg h]
      exact alookup_append l1 l2 k

theorem create_cf_indices (db : EQLDB) (t : Bytes) : (create_cf db t).indices = db.indices := by
  unfold create_cf
  split <;> rfl

theorem create_cf_lookup_self (db : EQLDB) (t : Bytes) :
    alookup (create_cf db t).cfs t = some ((alookup db.cfs t).getD []) := by
  unfold create_cf
  cases h : alookup db.cfs t with
  | some ns => simp [h]
  | none => simp [h, alookup_append, alookup]

theorem alookup_cfModify_self (cfs : CFs) (t : Bytes) (f : Namespace → Namespace) :
    alookup (cfModify cfs t f) t = (alookup cfs t).map f := by
  induction cfs with
  | nil => rfl
  | cons e rest ih =>
    show alookup ((if e.1 = t then (e.1, f e.2) else e) :: cfModify rest t f) t = _
    by_cases h : e.1 = t
    · simp [alookup, h]
    · simp [alookup, h, ih]

theorem alookup_cfModify_other (cfs : CFs) (s t : Bytes) (f : Namespace → Namespace)
    (h : s ≠ t) : alookup (cfModify cfs s f) t = alookup cfs t := by
  induction cfs with
  | nil => rfl
  | cons e rest ih =>
    show alookup ((if e.1 = s then (e.1, f e.2) else e) :: cfModify rest s f) t = _
    by_cases he : e.1 = s
    · have hnt : e.1 ≠ t := by rw [he]; exact h
      simp [alookup, he, hnt, h, ih]
    · by_cases ht : e.1 = t
      · simp [alookup, he, ht, Ne.symm h]
      · simp [alookup, he, ht, ih]

theorem alookup_applyOp_other (cfs : CFs) (op : BatchOp) (t : Bytes) (h : op.cfName ≠ t) :
    alookup (applyOp cfs op) t = alookup cfs t := by
  cases op with
  | put cf k v =>
    show alookup (cfModify cfs cf fun ns => nsPut ns k v) t = _
    exact alookup_cfModify_other cfs cf t _ h
  | del cf k =>
    show alookup (cfModify cfs cf fun ns => nsDel ns k) t = _
    exact alookup_cfModify_other cfs cf t _ h

theorem writeBatch_append (cfs : CFs) (l1 l2 : List BatchOp) :
    writeBatch cfs (l1 ++ l2) = writeBatch (writeBatch cfs l1) l2 := by
  unfold writeBatch
  exact List.foldl_append _ _ _ _

theorem alookup_writeBatch_other :
    ∀ (ops : List BatchOp) (cfs : CFs) (t : Bytes), (∀ op ∈ ops, op.cfName ≠ t) →
      alookup (writeBatch cfs ops) t = alookup cfs t
  | [], _, _, _ => rfl
  | op :: ops, cfs, t, h => by
    have h1 : op.cfName ≠ t := h op (List.mem_cons_self _ _)
    have h2 : ∀ o ∈ ops, o.cfName ≠ t := fun o ho => h o (List.mem_cons_of_mem _ ho)
    show alookup (writeBatch (applyOp cfs op) ops) t = _
    rw [alookup_writeBatch_other ops (applyOp cfs op) t h2, alookup_applyOp_other cfs op t h1]

theorem alookup_nsPut_self : ∀ (ns : Namespace) (k v : Bytes), alookup (nsPut ns k v) k = some v
  | [], k, v => by simp [nsPut, alookup]
  | e :: rest, k, v => by
    by_cases h : e.1 = k
    · simp [nsPut, alookup, h]
    · by_cases h2 : bytesLt k e.1 = true
      · simp [nsPut, alookup, h, h2]
      · have hne : e.1 ≠ k := h
        simp [nsPut, alookup, h, h2, hne, alookup_nsPut_self rest k v]

theorem alookup_nsDel_self (ns : Namespace) (k : Bytes) : alookup (nsDel ns k) k = none := by
  induction ns with
  | nil => rfl
  | cons e rest ih =>
    by_cases h : e.1 = k
    · simpa [nsDel, List.filter_cons, h] using ih
    · simpa [nsDel, List.filter_cons, h, alookup] using ih

theorem sbytes_idx_len : (sbytes "#idx_").length = 5 := rfl

theorem index_cf_name_ne (t i : Bytes) : index_cf_name t i ≠ t := by
  intro h
  have hlen := congrArg List.length h
  simp [index_cf_name, sbytes_idx_len] at hlen
  omega

theorem foldl_if_decomp {β : Type} (P : BatchOp → Prop) (cond : β → Bool) (mk : β → BatchOp)
    (hmk : ∀ x, P (mk x)) :
    ∀ (l : List β) (b : List BatchOp),
      ∃ extra, l.foldl (fun acc x => if cond x then acc ++ [mk x] else acc) b = b ++ extra ∧
        ∀ op ∈ extra, P op
  | [], b => ⟨[], by simp, by simp⟩
  | x :: l, b => by
    by_cases hc : cond x
    · rcases foldl_if_decomp P cond mk hmk l (b ++ [mk x]) with ⟨extra, hex, hP⟩
      refine ⟨mk x :: extra, ?_, ?_⟩
      · simp only [List.foldl_cons, if_pos hc, hex, List.append_assoc, List.singleton_append]
      · intro op hop
        rcases List.mem_cons.mp hop with hop | hop
        · rw [hop]; exact hmk x
        · exact hP op hop
    · rcases foldl_if_decomp P cond mk hmk l b with ⟨extra, hex, hP⟩
      exact ⟨extra, by simp only [List.foldl_cons, if_neg hc, hex], hP⟩

theorem batch_insert_cfs (db : EQLDB) (batch : List BatchOp) (t : Bytes) (k v : Value) :
    (batch_insert db batch t k v).1.cfs = (create_cf db t).cfs := by
  unfold batch_insert
  dsimp only
  split <;> rfl

theorem batch_insert_decomp (db : EQLDB) (batch : List BatchOp) (t : Bytes) (k v : Value) :
    ∃ extra, (batch_insert db batch t k v).2 =
        (batch ++ [BatchOp.put t (encode k) (encode v)]) ++ extra ∧
      ∀ op ∈ extra, op.cfName ≠ t := by
  unfold batch_insert
  dsimp only
  split
  · rcases foldl_if_decomp (β := Bytes × List Bytes) (fun op => op.cfName ≠ t)
      (fun idx => (alookup (create_cf db t).cfs (index_cf_name t idx.1)).isSome)
      (fun idx => BatchOp.put (index_cf_name t idx.1) (index_key idx.2 (encode k) v) (encode k))
      (fun idx => index_cf_name_ne t idx.1) _
      (batch ++ [BatchOp.put t (encode k) (encode v)]) with ⟨extra, hex, hP⟩
    exact ⟨extra, hex, hP⟩
  · exact ⟨[], by simp, by simp⟩

theorem insert_lookup (db : EQLDB) (t : Bytes) (k v : Value) :
    alookup (insert db t k v).cfs t =
      some (nsPut ((alookup db.cfs t).getD []) (encode k) (encode v)) := by
  show alookup (writeBatch (batch_insert db [] t k v).1.cfs (batch_insert db [] t k v).2) t = _
  rcases batch_insert_decomp db [] t k v with ⟨extra, hex, hP⟩
  rw [hex, batch_insert_cfs, writeBatch_append, alookup_writeBatch_other extra _ t hP]
  show alookup (applyOp (create_cf db t).cfs (BatchOp.put t (encode k) (encode v))) t = _
  show alookup (cfModify (create_cf db t).cfs t fun ns => nsPut ns (encode k) (encode v)) t = _
  rw [alookup_cfModify_self, create_cf_lookup_self]
  rfl

theorem insert_get (db : EQLDB) (t : Bytes) (k v : Value) :
    getRecord (insert db t k v) t k = some v := by
  unfold getRecord
  rw [insert_lookup]
  simp [alookup_nsPut_self, decode_encode]

theorem batch_delete_decomp (db : EQLDB) (batch : List BatchOp) (t : Bytes) (k : Value)
    (ns : Namespace) (hns : alookup db.cfs t = some ns) :
    ∃ extra, batch_delete db batch t k = (batch ++ extra) ++ [BatchOp.del t (encode k)] ∧
      ∀ op ∈ extra, op.cfName ≠ t := by
  unfold batch_delete
  dsimp only
  rw [hns]
  cases him : alookup db.indices t with
  | none => exact ⟨[], by simp, by simp⟩
  | some idxs =>
    by_cases hempty : idxs.isEmpty
    · exact ⟨[], by simp [hempty], by simp⟩
    · cases hlk : alookup ns (encode k) with
      | none => exact ⟨[], by simp [hempty, hlk], by simp⟩
      | some vbs =>
        rcases foldl_if_decomp (β := Bytes × List Bytes) (fun op => op.cfName ≠ t)
          (fun idx => (alookup db.cfs (index_cf_name t idx.1)).isSome)
          (fun idx => BatchOp.del (index_cf_name t idx.1)
            (index_key idx.2 (encode k) ((decode vbs).getD .null)))
          (fun idx => index_cf_name_ne t idx.1) idxs batch with ⟨extra, hex, hP⟩
        refine ⟨extra, ?_, hP⟩
        dsimp only
        rw [if_neg hempty, hlk]
        dsimp only
        rw [hex]

theorem delete_get (db : EQLDB) (t : Bytes) (k v : Value) :
    getRecord (delete (insert db t k v) t k) t k = none := by
  have hI := insert_lookup db t k v
  rcases batch_delete_decomp (insert db t k v) [] t k _ hI with ⟨extra, hex, hP⟩
  unfold delete getRecord
  rw [hex]
  simp only [List.nil_append]
  rw [writeBatch_append]
  have h1 : alookup (writeBatch (insert db t k v).cfs extra) t =
      alookup (insert db t k v).cfs t :=
    alookup_writeBatch_other extra _ t hP
  have h2 : writeBatch (writeBatch (insert db t k v).cfs extra) [BatchOp.del t (encode k)] =
      cfModify (writeBatch (insert db t k v).cfs extra) t (fun ns => nsDel ns (encode k)) := rfl
  rw [h2, alookup_cfModify_self, h1, hI]
  simp [alookup_nsDel_self]

theorem bytesLt_nil : ∀ k : Bytes, bytesLt k [] = false
  | [] => rfl
  | _ :: _ => rfl

theorem range_iff_pref :
    ∀ (p k : Bytes), (!bytesLt k (p ++ [0]) && bytesLt k (p ++ [1])) = hasPref (p ++ [0]) k
  | [], [] => by simp [bytesLt, hasPref]
  | [], x :: k' => by
    simp only [List.nil_append, bytesLt, hasPref, bytesLt_nil]
    by_cases h : x = 0
    · subst h
      simp
    · have h0 : ¬ x < 0 := by omega
      by_cases h2 : x < 1
      · omega
      · by_cases h3 : x = 1
        · simp [h, h0, h2, h3, Ne.symm h]
        · simp [h, h0, h2, h3, Ne.symm h]
  | a :: p', [] => by simp [bytesLt, hasPref]
  | a :: p', x :: k' => by
    simp only [List.cons_append, bytesLt, hasPref]
    by_cases h1 : x < a
    · simp [h1, show ¬ a = x by omega]
    · by_cases h2 : x = a
      · subst h2
        simp [h1, range_iff_pref p' k']
      · simp [h1, h2, show ¬ a = x by omega]

theorem values_key_concat :
    ∀ values : List Value, values ≠ [] → ∃ p, values_key values = p ++ [0]
  | [], h => absurd rfl h
  | [v], _ => ⟨encode v, by simp [values_key]⟩
  | v :: w :: vs, _ => by
    rcases values_key_concat (w :: vs) (by simp) with ⟨p, hp⟩
    refine ⟨encode v ++ 0 :: p, ?_⟩
    rw [show values_key (v :: w :: vs) = encode v ++ 0 :: values_key (w :: vs) from rfl, hp]
    simp

theorem hasPref_sep :
    ∀ (a b A B : Bytes), (∀ x ∈ a, x ≠ 0) → (∀ x ∈ b, x ≠ 0) →
      (hasPref (a ++ 0 :: A) (b ++ 0 :: B) = true ↔ a = b ∧ hasPref A B = true)
  | [], [], A, B, _, _ => by simp [hasPref]
  | [], y :: b', A, B, _, hb => by
    have hy : y ≠ 0 := hb y (List.mem_cons_self _ _)
    simp [hasPref, Ne.symm hy]
  | x :: a', [], A, B, ha, _ => by
    have hx : x ≠ 0 := ha x (List.mem_cons_self _ _)
    simp [hasPref, hx]
  | x :: a', y :: b', A, B, ha, hb => by
    have ha' : ∀ z ∈ a', z ≠ 0 := fun z hz => ha z (List.mem_cons_of_mem _ hz)
    have hb' : ∀ z ∈ b', z ≠ 0 := fun z hz => hb z (List.mem_cons_of_mem _ hz)
    by_cases hxy : x = y
    · subst hxy
      simp [hasPref, hasPref_sep a' b' A B ha' hb']
    · simp [hasPref, hxy]

theorem index_key_comp (o : Bytes) (v : Value) :
    (match jsonPtr v o with
     | some v2 => encode v2
     | none => encode Value.null) = encode ((jsonPtr v o).getD .null) := by
  cases jsonPtr v o <;> rfl

theorem hasPref_index_key :
    ∀ (values : List Value) (onP : List Bytes) (rk : Bytes) (v : Value),
      values.length ≤ onP.length →
      (hasPref (values_key values) (index_key onP rk v) = true ↔
        (onP.take values.length).map (fun o => encode ((jsonPtr v o).getD .null)) =
          values.map encode)
  | [], onP, rk, v, _ => by simp [values_key, hasPref]
  | v0 :: vr, [], rk, v, h => by simp at h
  | v0 :: vr, o :: or, rk, v, h => by
    have hlen : vr.length ≤ or.length := by simp at h; omega
    simp only [values_key, index_key, index_key_comp, List.take_succ_cons, List.map_cons,
      List.length_cons]
    rw [hasPref_sep (encode v0) (encode ((jsonPtr v o).getD .null)) _ _
      (encode_ne_zero v0) (encode_ne_zero _)]
    rw [hasPref_index_key vr or rk v hlen]
    simp only [List.cons.injEq]
    constructor
    · rintro ⟨h1, h2⟩
      exact ⟨h1.symm, h2⟩
    · rintro ⟨h1, h2⟩
      exact ⟨h1.symm, h2⟩

theorem executeIndexLookup_filter (db : EQLDB) (name iname : Bytes) (values : List Value)
    (keys : List Bytes) (ns : Namespace)
    (hcf : alookup db.cfs (index_cf_name name iname) = some ns) (hne : values ≠ []) :
    executeIndexLookup db name iname values keys =
      (ns.filter fun e => hasPref (values_key values) e.1).map
        fun e => ⟨(decode e.2).getD .null, extract_from_index_key e.1 keys⟩ := by
  unfold executeIndexLookup
  rw [hcf]
  dsimp only
  rw [if_neg (by simp [hne] : ¬ values.isEmpty = true)]
  rcases values_key_concat values hne with ⟨p, hp⟩
  have hfun : (fun (e : Bytes × Bytes) =>
      !bytesLt e.1 (values_key values) && bytesLt e.1 ((values_key values).dropLast ++ [1])) =
      fun e => hasPref (values_key values) e.1 := by
    funext e
    rw [hp, List.dropLast_concat]
    exact range_iff_pref p e.1
  rw [hfun]

theorem executeIndexLookup_empty (db : EQLDB) (name iname : Bytes) (keys : List Bytes)
    (ns : Namespace) (hcf : alookup db.cfs (index_cf_name name iname) = some ns) :
    executeIndexLookup db name iname [] keys =
      ns.map fun e => ⟨(decode e.2).getD .null, extract_from_index_key e.1 keys⟩ := by
  unfold executeIndexLookup
  rw [hcf]
  rfl

theorem head_toList_append : ∀ {α : Type} (l : List α), l.head?.toList ++ l.tail = l
  | _, [] => rfl
  | _, _ :: _ => rfl

theorem head_toList_length : ∀ {α : Type} (l : List α), l.head?.toList.length + l.tail.length = l.length
  | _, [] => rfl
  | _, x :: xs => by simp; omega

theorem head_none_tail : ∀ {α : Type} (l : List α), l.head? = none → l.tail = []
  | _, [], _ => rfl
  | _, x :: xs, h => by simp at h

theorem mergeLoopF_total :
    ∀ (fuel : Nat) (join : Option EQLRecord × Option EQLRecord → Option EQLRecord)
      (k1 k2 : EQLRecord → Bytes) (o1 : Option EQLRecord) (l1 : List EQLRecord)
      (o2 : Option EQLRecord) (l2 : List EQLRecord),
      o1.toList.length + l1.length + o2.toList.length + l2.length ≤ fuel →
      (mergeLoopF join k1 k2 fuel o1 l1 o2 l2).isSome = true
  | 0, join, k1, k2, none, l1, none, l2, _ => by simp [mergeLoopF]
  | 0, join, k1, k2, some r1, l1, o2, l2, h => by simp at h
  | 0, join, k1, k2, none, l1, some r2, l2, h => by simp at h
  | fuel + 1, join, k1, k2, none, l1, none, l2, _ => by simp [mergeLoopF]
  | fuel + 1, join, k1, k2, some r1, l1, some r2, l2, h => by
    have hm1 := head_toList_length l1
    have hm2 := head_toList_length l2
    simp only [mergeLoopF]
    split
    · have := mergeLoopF_total fuel join k1 k2 l1.head? l1.tail (some r2) l2
        (by simp only [Option.toList_some, List.length_cons, List.length_nil] at h ⊢; omega)
      rw [Option.isSome_map']
      exact this
    · split
      · have := mergeLoopF_total fuel join k1 k2 (some r1) l1 l2.head? l2.tail
          (by simp only [Option.toList_some, List.length_cons, List.length_nil] at h ⊢; omega)
        rw [Option.isSome_map']
        exact this
      · have := mergeLoopF_total fuel join k1 k2 (some r1) l1 l2.head? l2.tail
          (by simp only [Option.toList_some, List.length_cons, List.length_nil] at h ⊢; omega)
        rw [Option.isSome_map']
        exact this
  | fuel + 1, join, k1, k2, some r1, l1, none, l2, h => by
    have hm1 := head_toList_length l1
    have := mergeLoopF_total fuel join k1 k2 l1.head? l1.tail none l2
      (by simp only [Option.toList_some, List.length_cons, List.length_nil] at h ⊢; omega)
    simp only [mergeLoopF]
    rw [Option.isSome_map']
    exact this
  | fuel + 1, join, k1, k2, none, l1, some r2, l2, h => by
    have hm2 := head_toList_length l2
    have := mergeLoopF_total fuel join k1 k2 none l1 l2.head? l2.tail
      (by simp only [Option.toList_some, List.length_cons, List.length_nil] at h ⊢; omega)
    simp only [mergeLoopF]
    rw [Option.isSome_map']
    exact this

theorem mergeLoopF_spec :
    ∀ (fuel : Nat) (join : Option EQLRecord × Option EQLRecord → Option EQLRecord)
      (k1 k2 : EQLRecord → Bytes) (o1 : Option EQLRecord) (l1 : List EQLRecord)
      (o2 : Option EQLRecord) (l2 : List EQLRecord),
      (o1 = none → l1 = []) → (o2 = none → l2 = []) →
      o1.toList.length + l1.length + o2.toList.length + l2.length ≤ fuel →
      mergeLoopF join k1 k2 fuel o1 l1 o2 l2 =
        some (mergeSpec join k1 k2 (o1.toList ++ l1) (o2.toList ++ l2))
  | fuel, join, k1, k2, none, l1, none, l2, h1, h2, _ => by
    rw [h1 rfl, h2 rfl]
    cases fuel <;> simp [mergeLoopF, mergeSpec]
  | 0, join, k1, k2, some r1, l1, o2, l2, _, _, h => by simp at h
  | 0, join, k1, k2, none, l1, some r2, l2, _, _, h => by simp at h
  | fuel + 1, join, k1, k2, some r1, l1, some r2, l2, _, _, h => by
    have hm1 := head_toList_length l1
    have hm2 := head_toList_length l2
    have ih1 := mergeLoopF_spec fuel join k1 k2 l1.head? l1.tail (some r2) l2
      (fun hh => head_none_tail l1 hh) (by simp) (by simp only [Option.toList_some, List.length_cons, List.length_nil] at h ⊢; omega)
    have ih2 := mergeLoopF_spec fuel join k1 k2 (some r1) l1 l2.head? l2.tail
      (by simp) (fun hh => head_none_tail l2 hh) (by simp only [Option.toList_some, List.length_cons, List.length_nil] at h ⊢; omega)
    rw [head_toList_append] at ih1 ih2
    simp only [mergeLoopF, Option.toList_some, List.singleton_append, mergeSpec]
    split
    · rw [ih1]
      simp
    · split
      · rw [ih2]
        simp
      · rw [ih2]
        simp
  | fuel + 1, join, k1, k2, some r1, l1, none, l2, _, h2, h => by
    have hm1 := head_toList_length l1
    rw [h2 rfl]
    have ih := mergeLoopF_spec fuel join k1 k2 l1.head? l1.tail none []
      (fun hh => head_none_tail l1 hh) (by simp) (by rw [h2 rfl] at h; simp only [Option.toList_some, Option.toList_none, List.length_cons, List.length_nil] at h ⊢; omega)
    rw [head_toList_append] at ih
    simp only [mergeLoopF, Option.toList_some, Option.toList_none, List.singleton_append,
      List.append_nil, mergeSpec]
    rw [ih]
    simp [mergeSpec]
  | fuel + 1, join, k1, k2, none, l1, some r2, l2, h1, _, h => by
    have hm2 := head_toList_length l2
    rw [h1 rfl]
    have ih := mergeLoopF_spec fuel join k1 k2 none [] l2.head? l2.tail
      (by simp) (fun hh => head_none_tail l2 hh) (by rw [h1 rfl] at h; simp only [Option.toList_some, Option.toList_none, List.length_cons, List.length_nil] at h ⊢; omega)
    rw [head_toList_append] at ih
    simp only [mergeLoopF, Option.toList_some, Option.toList_none, List.singleton_append,
      List.append_nil, mergeSpec]
    rw [ih]
    simp [mergeSpec]

theorem mergeExec_spec (join : Option EQLRecord × Option EQLRecord → Option EQLRecord)
    (k1 k2 : EQLRecord → Bytes) (l1 l2 : List EQLRecord) :
    mergeExec join k1 k2 l1 l2 = mergeSpec join k1 k2 l1 l2 := by
  unfold mergeExec
  rw [mergeLoopF_spec (l1.length + l2.length) join k1 k2 l1.head? l1.tail l2.head? l2.tail
    (fun hh => head_none_tail l1 hh) (fun hh => head_none_tail l2 hh)
    (by have a := head_toList_length l1; have b := head_toList_length l2; omega)]
  rw [head_toList_append, head_toList_append]
  rfl

theorem alookup_mem {β : Type} : ∀ (l : List (Bytes × β)) (k : Bytes) (v : β),
    alookup l k = some v → (k, v) ∈ l
  | [], k, v, h => by simp [alookup] at h
  | ⟨a, b⟩ :: rest, k, v, h => by
    rw [show alookup (⟨a, b⟩ :: rest) k = if a = k then some b else alookup rest k from rfl] at h
    by_cases hk : a = k
    · rw [if_pos hk] at h
      injection h with h2
      subst hk
      subst h2
      exact List.mem_cons_self _ _
    · rw [if_neg hk] at h
      exact List.mem_cons_of_mem _ (alookup_mem rest k v h)

theorem mem_buildPairs (bh : RecordExtract) (recs : List EQLRecord) (p : Bytes × EQLRecord)
    (hp : p ∈ buildPairs bh recs) :
    p.2 ∈ recs ∧ ∃ s, applyExtract bh p.2 = some s ∧ p.1 = encode s := by
  unfold buildPairs at hp
  rw [List.mem_flatMap] at hp
  rcases hp with ⟨rec, hrec, hp2⟩
  cases ha : applyExtract bh rec with
  | none =>
    rw [ha] at hp2
    simp at hp2
  | some s =>
    rw [ha] at hp2
    simp at hp2
    subst hp2
    exact ⟨hrec, s, ha, rfl⟩

theorem hmGet_buildPairs (bh : RecordExtract) (recs : List EQLRecord) (k : Bytes)
    (r : EQLRecord) (h : hmGet (buildPairs bh recs) k = some r) :
    r ∈ recs ∧ (applyExtract bh r).isSome = true := by
  unfold hmGet at h
  have hmem := alookup_mem _ k r h
  rw [List.mem_reverse] at hmem
  rcases mem_buildPairs bh recs (k, r) hmem with ⟨hin, s, hs, _⟩
  exact ⟨hin, by rw [hs]; rfl⟩

/-- C1: after `insert t k valA1; insert t k valA2` the record reads back as
`valA2`, yet the index namespace still holds the entry computed from the OLD
value `valA1` (pointing at key `k`): `batch_insert` writes the new index
entries without deleting the entries of the overwritten value, so an orphan
index entry survives a completed mutation, refuting the claimed invariant. -/
theorem C1_overwrite_keeps_stale_index_entry :
    getRecord dbC1 tyT keyK = some valA2 ∧
    alookup ((alookup dbC1.cfs (index_cf_name tyT idxI)).getD [])
      (index_key [ptrA] (encode keyK) valA1) = some (encode keyK) := ⟨rfl, rfl⟩

/-- C2 counterexample: the textual JSON codec is not order-preserving under
byte-lexicographic comparison, neither for numbers (2 ≤ 10 but "2" > "10"
byte-wise) nor for strings ("a" < "a!" as raw bytes, but the closing quote
byte 0x22 of the shorter encoding exceeds no byte: "\x22a\x22" > "\x22a!\x22"
fails at the third byte 0x22 > 0x21). -/
theorem C2_encode_not_order_preserving :
    ((2 : Int) ≤ 10 ∧ bytesLe (encode (Value.num 2)) (encode (Value.num 10)) = false) ∧
    (bytesLe (sbytes "a") (sbytes "a!") = true ∧
     bytesLe (encode (Value.str (sbytes "a"))) (encode (Value.str (sbytes "a!"))) = false) := by
  decide

/-- C2 (amended): the codec is canonical — byte-equal encodings imply equal
values, since the verified decoder recovers the value from its encoding —
but it is NOT order-preserving for primitive values (see the counterexample
theorem): index range lookups compare raw serialized bytes. -/
theorem C2_encode_canonical (v1 v2 : Value) (h : encode v1 = encode v2) : v1 = v2 := by
  have h1 := decode_encode v1
  have h2 := decode_encode v2
  rw [h] at h1
  rw [h1] at h2
  exact Option.some.inj h2

theorem C2_encode_canonical_witness :
    encode (Value.num 7) = encode (Value.num 7) ∧ Value.num 7 = Value.num 7 :=
  ⟨rfl, C2_encode_canonical (Value.num 7) (Value.num 7) rfl⟩

/-- C3: `add_index` on a database already holding one record of the type does
register the index and open its namespace, but the back-fill is lost: the
final accumulated `WriteBatch` of the `try_fold` (holding every entry since
the last 1000-entry flush) is dropped on return, so the freshly created index
namespace is empty even though a record of the type exists. -/
theorem C3_add_index_drops_trailing_batch :
    alookup dbC3.indices tyT = some [(idxI, [ptrA])] ∧
    alookup dbC3.cfs (index_cf_name tyT idxI) = some [] ∧
    executeScan dbC3 tyT = [⟨keyK, valA1⟩] := ⟨rfl, rfl, rfl⟩

/-- C4: the store round-trips: after `insert t k v`, `get t k` returns
exactly `v` (the codec round-trips bit-identically), and after a subsequent
`delete t k` it returns `None`. -/
theorem C4_insert_get_delete (db : EQLDB) (t : Bytes) (k v : Value) :
    getRecord (insert db t k v) t k = some v ∧
    getRecord (delete (insert db t k v) t k) t k = none :=
  ⟨insert_get db t k v, delete_get db t k v⟩

/-- C5 counterexample: with an empty component list the whole index namespace
is iterated, but this does NOT yield every record of the type exactly once on
every reachable database: after an insert-overwrite (see C1) the index holds
a stale entry besides the fresh one, so the empty-component lookup yields the
record key `k` twice while the type holds exactly one record. -/
theorem C5_empty_lookup_duplicates :
    (execute 1 dbC1 (Operation.IndexLookup tyT idxI [] [])).map EQLRecord.key =
      [keyK, keyK] ∧
    (executeScan dbC1 tyT).map EQLRecord.key = [keyK] := ⟨rfl, rfl⟩

/-- C5 (amended): when the index namespace is open and the component list is
non-empty, the range iteration from `values_key` (each component's encoding
followed by 0x00) up to the exclusive bound with the final 0x00 replaced by
0x01 returns exactly the index entries whose key begins with those encoded
components; a stored index key matches iff its first m extracted components
encode to the given values; and with an empty component list every entry of
the namespace is yielded, one output record per index entry (every record of
the type exactly once only when the index holds exactly one entry per record,
which the C1 overwrite bug can violate). -/
theorem C5_index_lookup_semantics (db : EQLDB) (name iname : Bytes) (values : List Value)
    (keys : List Bytes) (ns : Namespace) (onP : List Bytes) (rk : Bytes) (v : Value)
    (hcf : alookup db.cfs (index_cf_name name iname) = some ns)
    (hne : values ≠ []) (hlen : values.length ≤ onP.length) :
    (executeIndexLookup db name iname values keys =
      (ns.filter fun e => hasPref (values_key values) e.1).map
        fun e => ⟨(decode e.2).getD .null, extract_from_index_key e.1 keys⟩) ∧
    (hasPref (values_key values) (index_key onP rk v) = true ↔
      (onP.take values.length).map (fun o => encode ((jsonPtr v o).getD .null)) =
        values.map encode) ∧
    executeIndexLookup db name iname [] keys =
      ns.map fun e => ⟨(decode e.2).getD .null, extract_from_index_key e.1 keys⟩ :=
  ⟨executeIndexLookup_filter db name iname values keys ns hcf hne,
   hasPref_index_key values onP rk v hlen,
   executeIndexLookup_empty db name iname keys ns hcf⟩

theorem C5_index_lookup_semantics_witness :
    (alookup dbIdx.cfs (index_cf_name tyT idxI) = some [] ∧
     ([Value.num 1] : List Value) ≠ [] ∧
     ([Value.num 1] : List Value).length ≤ [ptrA].length) ∧
    ((executeIndexLookup dbIdx tyT idxI [Value.num 1] [] =
      (([] : Namespace).filter fun e => hasPref (values_key [Value.num 1]) e.1).map
        fun e => ⟨(decode e.2).getD .null, extract_from_index_key e.1 []⟩) ∧
     (hasPref (values_key [Value.num 1]) (index_key [ptrA] (sbytes "r") valA1) = true ↔
       ([ptrA].take ([Value.num 1] : List Value).length).map
           (fun o => encode ((jsonPtr valA1 o).getD .null)) =
         ([Value.num 1] : List Value).map encode) ∧
     executeIndexLookup dbIdx tyT idxI [] [] =
       ([] : Namespace).map fun e =>
         ⟨(decode e.2).getD .null, extract_from_index_key e.1 []⟩) :=
  ⟨⟨rfl, by simp, by decide⟩,
   C5_index_lookup_semantics dbIdx tyT idxI [Value.num 1] [] [] [ptrA] (sbytes "r") valA1
     rfl (by simp) (by decide)⟩

/-- C6: the Merge execution equals the step semantics the spec ascribes to
MergeJoin (`mergeSpec`): keys compared as canonical encodings; on less emit
`combine(Some l, None)` and advance the left; on greater emit
`combine(None, Some r)` and advance the right; on equal emit
`combine(Some l, Some r)` and advance only the right; once a side drains,
flush the other through one-sided combine calls; `None` results dropped. -/
theorem C6_merge_step_semantics (fuel : Nat) (db : EQLDB) (first second : Operation)
    (fk sk : List RecordExtract)
    (join : Option EQLRecord × Option EQLRecord → Option EQLRecord) :
    execute (fuel + 1) db (Operation.Merge first fk second sk join) =
      mergeSpec join (fun r => values_key (multipleExtract fk r))
        (fun r => values_key (multipleExtract sk r))
        (execute fuel db first) (execute fuel db second) :=
  mergeExec_spec join _ _ (execute fuel db first) (execute fuel db second)

/-- C7: a `null` component value in an IndexLookup is NOT a wildcard: it is
matched literally as the encoding of `null`. On a database whose only record
of the type has `a = 1` (so the index component differs from null), the
lookup with `null` at that position returns nothing, while the lookup with
the literal component value `1` returns the record — refuting the claim that
null leaves the component unconstrained. -/
theorem C7_null_component_not_wildcard :
    executeScan dbC7 tyT = [⟨Value.str (sbytes "k1"), valA1⟩] ∧
    execute 1 dbC7 (Operation.IndexLookup tyT idxI [Value.null] []) = [] ∧
    (execute 1 dbC7 (Operation.IndexLookup tyT idxI [Value.num 1] [])).map EQLRecord.key =
      [Value.str (sbytes "k1")] := ⟨rfl, rfl, rfl⟩

/-- C8: the textual form `script("rec.key")` parses to the POINTER variant of
`ScriptedRecordExtract`, not the scripted-callback variant: the parser's
script branch wraps the quoted source in `Pointer`, so the extract would
interpret the callback source as a structural path selector. -/
theorem C8_script_parsed_as_pointer :
    parseRecordExtract 9 "script(\"rec.key\")".data =
      some (ScriptedRecordExtract.Pointer "rec.key".data, []) := rfl

/-- C9: the merge loop terminates on finite inputs: with fuel equal to the
total number of input records — each iteration consumes exactly one element
from exactly one side — the loop returns a result (never runs out of fuel),
for every join function, key extractors and inputs. -/
theorem C9_merge_loop_terminates
    (join : Option EQLRecord × Option EQLRecord → Option EQLRecord)
    (k1 k2 : EQLRecord → Bytes) (l1 l2 : List EQLRecord) :
    (mergeLoopF join k1 k2 (l1.length + l2.length)
      l1.head? l1.tail l2.head? l2.tail).isSome = true := by
  apply mergeLoopF_total
  have a := head_toList_length l1
  have b := head_toList_length l2
  omega

/-- C10: a build-side record whose build-hash extract yields no value is
omitted from the build map: inserting it anywhere in the build input leaves
`buildPairs` unchanged; any record the probe finds in the map is a build
record whose extract produced a value (so the omitted record never appears as
the `Some` build argument of a combine call); and probing a record against
the build including the no-hash record gives exactly the combine call against
the build without it — so a probe record with no other match still receives
its `combine(None, probe)` call. -/
theorem C10_hash_build_without_hash (bh ph : RecordExtract)
    (join : Option EQLRecord × EQLRecord → Option EQLRecord)
    (pre post : List EQLRecord) (rec p : EQLRecord) (hv : Value)
    (k : Bytes) (r : EQLRecord)
    (hno : applyExtract bh rec = none) (hp : applyExtract ph p = some hv) :
    buildPairs bh (pre ++ rec :: post) = buildPairs bh (pre ++ post) ∧
    (hmGet (buildPairs bh (pre ++ rec :: post)) k = some r →
      r ∈ pre ++ post ∧ (applyExtract bh r).isSome = true ∧ r ≠ rec) ∧
    probeExec ph join (buildPairs bh (pre ++ rec :: post)) [p] =
      (join (hmGet (buildPairs bh (pre ++ post)) (encode hv), p)).toList := by
  have h1 : buildPairs bh (pre ++ rec :: post) = buildPairs bh (pre ++ post) := by
    simp [buildPairs, hno]
  refine ⟨h1, ?_, ?_⟩
  · intro h
    rw [h1] at h
    rcases hmGet_buildPairs bh (pre ++ post) k r h with ⟨hin, hs⟩
    refine ⟨hin, hs, ?_⟩
    intro he
    rw [he, hno] at hs
    simp at hs
  · unfold probeExec
    simp [hp, h1]

theorem C10_hash_build_without_hash_witness :
    (applyExtract (RecordExtract.Pointer (sbytes "/x")) recNoHash = none ∧
     applyExtract RecordExtract.Key recHashed = some (Value.num 1)) ∧
    (buildPairs (RecordExtract.Pointer (sbytes "/x")) ([] ++ recNoHash :: [recHashed]) =
       buildPairs (RecordExtract.Pointer (sbytes "/x")) ([] ++ [recHashed]) ∧
     (hmGet (buildPairs (RecordExtract.Pointer (sbytes "/x")) ([] ++ recNoHash :: [recHashed]))
         (sbytes "z") = some recHashed →
       recHashed ∈ [] ++ [recHashed] ∧
       (applyExtract (RecordExtract.Pointer (sbytes "/x")) recHashed).isSome = true ∧
       recHashed ≠ recNoHash) ∧
     probeExec RecordExtract.Key (fun q => q.1.map fun _ => q.2)
       (buildPairs (RecordExtract.Pointer (sbytes "/x")) ([] ++ recNoHash :: [recHashed]))
       [recHashed] =
       ((fun (q : Option EQLRecord × EQLRecord) => q.1.map fun _ => q.2)
         (hmGet (buildPairs (RecordExtract.Pointer (sbytes "/x")) ([] ++ [recHashed]))
           (encode (Value.num 1)), recHashed)).toList) :=
  ⟨⟨rfl, rfl⟩,
   C10_hash_build_without_hash (RecordExtract.Pointer (sbytes "/x")) RecordExtract.Key
     (fun q => q.1.map fun _ => q.2) [] [recHashed] recNoHash recHashed (Value.num 1)
     (sbytes "z") recHashed rfl rfl⟩
